import Mathlib

/-!
Verification of scripts/bump_version.py.

The script is embedded at the level of character lists.  Text is `List Char`;
the regular expressions of the script are implemented as deterministic
scanners that reproduce the Python `re` semantics on the patterns actually
used (all of them are anchored at line starts, use greedy character classes
followed by characters outside the class, and in one case a trailing
greedy whitespace run followed by an end-of-line assertion, which is the
only place backtracking matters and is modelled exactly).
-/

namespace BV

/-- ASCII whitespace: the characters matched by the regex class for
whitespace and removed by str.strip (ASCII fragment). -/
def isWs (c : Char) : Bool :=
  c = ' ' || c = '\t' || c = '\n' || c = '\r' || c = '\x0b' || c = '\x0c'

/-- ASCII decimal digit, the character class 0-9 used by all version patterns. -/
def isDigit (c : Char) : Bool :=
  48 ≤ c.toNat && c.toNat ≤ 57

/-- ASCII lowercase letter, used to describe well-formed key lines of a lockfile. -/
def isLower (c : Char) : Bool :=
  97 ≤ c.toNat && c.toNat ≤ 122

/-- The decimal digit character for a value below ten, as produced by
Python integer formatting. -/
def decDigit (n : Nat) : Char :=
  match n with
  | 0 => '0'
  | 1 => '1'
  | 2 => '2'
  | 3 => '3'
  | 4 => '4'
  | 5 => '5'
  | 6 => '6'
  | 7 => '7'
  | 8 => '8'
  | _ => '9'

/-- Fuelled decimal rendering of a natural number. -/
def natToDecAux : Nat → Nat → List Char
  | 0, _ => []
  | f + 1, n =>
    if n < 10 then [decDigit n]
    else natToDecAux f (n / 10) ++ [decDigit (n % 10)]

/-- Decimal rendering of a natural number, as the Python f-string renders an int:
no sign, no leading zeros except for the single digit 0. -/
def natToDec (n : Nat) : List Char :=
  natToDecAux (n + 1) n

/-- Numeric value of a digit string, as Python int() on a decimal literal. -/
def decVal (ds : List Char) : Nat :=
  ds.foldl (fun a c => 10 * a + (c.toNat - 48)) 0

/-- Remove trailing whitespace. -/
def trimEnd : List Char → List Char
  | [] => []
  | c :: t => if trimEnd t = [] ∧ isWs c = true then [] else c :: trimEnd t

/-- Python str.strip(): remove leading and trailing whitespace. -/
def pyStrip (s : List Char) : List Char :=
  trimEnd (s.dropWhile isWs)

/-- Full anchored match of the version pattern: one-or-more digits, a dot,
one-or-more digits, a dot, one-or-more digits, end of string.  Returns the
three digit groups.  This is the pattern bump matches against the stripped
version argument. -/
def matchTriple (s : List Char) : Option (List Char × List Char × List Char) :=
  let a := s.takeWhile isDigit
  let r1 := s.dropWhile isDigit
  let b := r1.tail.takeWhile isDigit
  let r3 := r1.tail.dropWhile isDigit
  let c := r3.tail.takeWhile isDigit
  let r5 := r3.tail.dropWhile isDigit
  if a ≠ [] ∧ r1.head? = some '.' ∧ b ≠ [] ∧ r3.head? = some '.' ∧ c ≠ [] ∧ r5 = []
  then some (a, b, c) else none

/-- The two ValueError sites of bump: unsupported version format (carrying the
original, unstripped argument) and invalid bump kind (carrying the kind). -/
inductive BumpError where
  | invalidFormat (ver : List Char)
  | invalidKind (kind : List Char)
deriving DecidableEq

deriving instance DecidableEq for Except

/-- Serialization of a version triple by the f-string of bump. -/
def renderTriple (a b c : Nat) : List Char :=
  natToDec a ++ '.' :: (natToDec b ++ '.' :: natToDec c)

/-- The bump function of the script: strip the argument, match it against the
three-component digit pattern, convert the groups with int, apply the kind
rule, and format the result. -/
def bump (ver kind : List Char) : Except BumpError (List Char) :=
  match matchTriple (pyStrip ver) with
  | none => Except.error (BumpError.invalidFormat ver)
  | some (a, b, c) =>
    if kind = "major".data then
      Except.ok (renderTriple (decVal a + 1) 0 0)
    else if kind = "minor".data then
      Except.ok (renderTriple (decVal a) (decVal b + 1) 0)
    else if kind = "patch".data then
      Except.ok (renderTriple (decVal a) (decVal b) (decVal c + 1))
    else
      Except.error (BumpError.invalidKind kind)

/-- Parse a version string with the pattern of bump and re-serialize the
integer triple with the f-string of bump: the parse-then-format round trip. -/
def roundTrip (s : List Char) : Option (List Char) :=
  match matchTriple s with
  | none => none
  | some (a, b, c) => some (renderTriple (decVal a) (decVal b) (decVal c))

/-- A digit group carries no superfluous leading zero: it is not of the form
0 followed by more digits. -/
def noLead : List Char → Bool
  | '0' :: _ :: _ => false
  | _ => true

/-- Strip a literal off the front of a string: the embedding of a literal
piece of a regex pattern. -/
def lit : List Char → List Char → Option (List Char)
  | [], s => some s
  | _ :: _, [] => none
  | p :: ps, c :: cs => if c = p then lit ps cs else none

/-- Greedy match of a whitespace run followed by an end-of-line assertion in
multiline mode, as in the trailing part of the lockfile patterns: consume the
longest whitespace prefix after which the remainder is empty or starts with a
newline, and return that remainder; fail when no such prefix exists. -/
def wsDollarDrop : List Char → Option (List Char)
  | [] => some []
  | c :: t =>
    if isWs c then
      match wsDollarDrop t with
      | some r => some r
      | none => if c = '\n' then some (c :: t) else none
    else none

/-- Whether a whitespace run followed by an end-of-line assertion matches here. -/
def wsEnd (s : List Char) : Bool :=
  (wsDollarDrop s).isSome

/-- Match of the name pattern of patch_lockfile at one position: the literal
name, optional whitespace, an equals sign, optional whitespace, the quoted
crate name (matched literally, as the script escapes it), then whitespace up
to an end of line. -/
def nameAt (crate : List Char) (s : List Char) : Bool :=
  match lit "name".data s with
  | none => false
  | some s1 =>
    let r1 := s1.dropWhile isWs
    if r1.head? = some '=' then
      let r2 := r1.tail.dropWhile isWs
      if r2.head? = some '"' then
        match lit crate r2.tail with
        | some s3 => if s3.head? = some '"' then wsEnd s3.tail else false
        | none => false
      else false
    else false

/-- Match the quoted digit triple and closing quote of the version patterns:
digits, dot, digits, dot, digits, then a double quote.  Returns the matched
triple text and the rest after the closing quote. -/
def tripleTake (s : List Char) : Option (List Char × List Char) :=
  let a := s.takeWhile isDigit
  let r1 := s.dropWhile isDigit
  let b := r1.tail.takeWhile isDigit
  let r3 := r1.tail.dropWhile isDigit
  let c := r3.tail.takeWhile isDigit
  let r5 := r3.tail.dropWhile isDigit
  if a ≠ [] ∧ r1.head? = some '.' ∧ b ≠ [] ∧ r3.head? = some '.' ∧ c ≠ [] ∧ r5.head? = some '"'
  then some (a ++ '.' :: (b ++ '.' :: c), r5.tail) else none

/-- Match the common core of both version patterns at one position: the
literal word version, optional whitespace, an equals sign, optional
whitespace, then a quoted digit triple.  Returns the text of the first
group (up to and including the whitespace after the equals sign), the
matched triple, and the rest after the closing quote. -/
def verCore (s : List Char) : Option (List Char × List Char × List Char) :=
  match lit "version".data s with
  | none => none
  | some s1 =>
    let w1 := s1.takeWhile isWs
    let r1 := s1.dropWhile isWs
    if r1.head? = some '=' then
      let w2 := r1.tail.takeWhile isWs
      let r2 := r1.tail.dropWhile isWs
      if r2.head? = some '"' then
        match tripleTake r2.tail with
        | some (d, s4) => some ("version".data ++ w1 ++ '=' :: w2, d, s4)
        | none => none
      else none
    else none

/-- Match of the lockfile version pattern at one position: the version core
followed by whitespace up to an end of line, which the match consumes.
Returns the first group and the rest after the consumed trailing whitespace. -/
def verMatchLock (s : List Char) : Option (List Char × List Char) :=
  match verCore s with
  | some (g1, _, s4) =>
    match wsDollarDrop s4 with
    | some r => some (g1, r)
    | none => none
  | none => none

/-- Search for the name pattern at the line starts of a block, the line-start
flag tracking whether the current position follows a newline or is the start
of the searched string. -/
def findNameLS (crate : List Char) : List Char → Bool → Bool
  | [], _ => false
  | c :: t, ls => (ls && nameAt crate (c :: t)) || findNameLS crate t (c = '\n')

/-- Substitute the first match of the lockfile version pattern, scanning line
starts; the replacement is the first group followed by the new version in
quotes, and the trailing whitespace consumed by the match is dropped. -/
def subVerLock (v : List Char) : List Char → Bool → List Char
  | [], _ => []
  | c :: t, ls =>
    if ls then
      match verMatchLock (c :: t) with
      | some (g1, r) => g1 ++ '"' :: (v ++ '"' :: r)
      | none => c :: subVerLock v t (c = '\n')
    else c :: subVerLock v t (c = '\n')

/-- The lockfile block marker. -/
def pkgM : List Char := "[[package]]".data

/-- The two characters that end a lockfile block when seen at a line start. -/
def bbLit : List Char := "[[".data

/-- Split a string at the first line-start occurrence of the block marker:
returns the text before the marker and the rest beginning with the marker. -/
def splitAtMarker : List Char → Bool → Option (List Char × List Char)
  | [], _ => none
  | c :: t, ls =>
    if ls && pkgM.isPrefixOf (c :: t) then some ([], c :: t)
    else
      match splitAtMarker t (c = '\n') with
      | none => none
      | some (pre, rest) => some (c :: pre, rest)

/-- Scan forward to the first line-start double bracket or the end of the
string: the extent of a lockfile block after its marker. -/
def splitBlockEnd : List Char → Bool → List Char × List Char
  | [], _ => ([], [])
  | c :: t, ls =>
    if ls && bbLit.isPrefixOf (c :: t) then ([], c :: t)
    else (c :: (splitBlockEnd t (c = '\n')).1, (splitBlockEnd t (c = '\n')).2)

/-- One block as the loop of patch_lockfile treats it: substituted when the
block contains a name line for the target crate, kept otherwise. -/
def patchBlockB (crate v b : List Char) : List Char :=
  if findNameLS crate b true then subVerLock v b true else b

/-- The fuelled loop of patch_lockfile over the block matches: find the next
marker, take the block up to the next line-start double bracket, patch it
when its name matches, and continue after it.  The fuel strictly exceeds the
remaining length on every call made from patchText. -/
def patchLoopAux (crate v : List Char) : Nat → List Char → Bool × List Char
  | 0, s => (false, s)
  | f + 1, s =>
    match splitAtMarker s true with
    | none => (false, s)
    | some (pre, rest) =>
      let after := rest.drop 11
      let be := splitBlockEnd after false
      let b2 := patchBlockB crate v be.1
      let rec2 := patchLoopAux crate v f be.2
      ((if b2 = be.1 then rec2.1 else true), pre ++ pkgM ++ b2 ++ rec2.2)

/-- The in-memory text transformation of patch_lockfile: returns the changed
flag and the resulting text. -/
def patchText (crate v s : List Char) : Bool × List Char :=
  patchLoopAux crate v (s.length + 1) s

/-- patch_lockfile of the script, over the optional file contents: a missing
file yields no change and no write; otherwise the text is transformed and
written back exactly when a change occurred (the second component is the
content written, none when nothing is written). -/
def patch_lockfile (file : Option (List Char)) (crate v : List Char) :
    Bool × Option (List Char) :=
  match file with
  | none => (false, none)
  | some s =>
    let r := patchText crate v s
    (r.1, if r.1 then some r.2 else none)

/-- The lockfile-related lines main prints, from the changed flag returned by
patch_lockfile. -/
def lockfileMessages (changed : Bool) (v : List Char) : List (List Char) :=
  if changed then ["Lockfile updated to ".data ++ v] else []

/-- The fuelled decomposition of a lockfile into the segments the loop of
patch_lockfile walks: the text before the first marker, then for each block
its content and the gap after it up to the next marker. -/
def lockSegsAux : Nat → List Char → List Char × List (List Char × List Char)
  | 0, s => (s, [])
  | f + 1, s =>
    match splitAtMarker s true with
    | none => (s, [])
    | some (pre, rest) =>
      let after := rest.drop 11
      let be := splitBlockEnd after false
      let rec2 := lockSegsAux f be.2
      (pre, (be.1, rec2.1) :: rec2.2)

/-- The segment decomposition of a lockfile text. -/
def lockSegs (s : List Char) : List Char × List (List Char × List Char) :=
  lockSegsAux (s.length + 1) s

/-- Reassemble a segment decomposition into a text. -/
def lockJoin (d : List Char × List (List Char × List Char)) : List Char :=
  d.1 ++ (d.2.map fun p => pkgM ++ p.1 ++ p.2).flatten

/-- Whether any block of a segment decomposition is changed by the patch. -/
def segsChanged (crate v : List Char) (l : List (List Char × List Char)) : Bool :=
  l.any fun p => if patchBlockB crate v p.1 = p.1 then false else true

/-- Render the body of a structured lockfile block: each line followed by a
newline. -/
def renderBody (ls : List (List Char)) : List Char :=
  (ls.map fun l => l ++ ['\n']).flatten

/-- Render one structured lockfile block: the marker line then the body. -/
def renderBlock (b : List (List Char)) : List Char :=
  pkgM ++ '\n' :: renderBody b

/-- Render a structured lockfile: a sequence of blocks. -/
def renderLock (bs : List (List (List Char))) : List Char :=
  (bs.map renderBlock).flatten

/-- A well-formed lockfile line: nonempty, beginning with a lowercase letter,
containing no newline. -/
def goodLine : List Char → Bool
  | [] => false
  | c :: t => isLower c && (c :: t).all fun x => decide (x ≠ '\n')

/-- Whether a single line carries the name field for the crate. -/
def lineName (crate l : List Char) : Bool :=
  nameAt crate l

/-- Whether a single line matches the lockfile version pattern; returns the
first group when it does. -/
def lineVer (l : List Char) : Option (List Char) :=
  match verCore l with
  | some (g1, _, trail) => if trail.all isWs then some g1 else none
  | none => none

/-- Replace the first version line of a structured block body with the new
version, dropping any trailing whitespace of that line, as the substitution
of patch_lockfile does. -/
def patchLines (v : List Char) : List (List Char) → List (List Char)
  | [] => []
  | l :: ls =>
    match lineVer l with
    | some g1 => (g1 ++ '"' :: (v ++ ['"'])) :: ls
    | none => l :: patchLines v ls

/-- The per-block update on structured blocks: patch the body when some line
names the crate. -/
def patchBlockL (crate v : List Char) (b : List (List Char)) : List (List Char) :=
  if b.any (lineName crate) then patchLines v b else b

/-- In a structured block body, the first line matching the version pattern,
when there is one, is not the last line of the block. -/
def firstVerNotLast : List (List Char) → Bool
  | [] => true
  | [l] => (lineVer l).isNone
  | l :: l2 :: ls => (lineVer l).isSome || firstVerNotLast (l2 :: ls)

/-- The manifest section header. -/
def pkgLit : List Char := "[package]".data

/-- Split a manifest at the first line-start package header: the text before
it and the rest beginning with the header. -/
def splitAtPkg : List Char → Bool → Option (List Char × List Char)
  | [], _ => none
  | c :: t, ls =>
    if ls && pkgLit.isPrefixOf (c :: t) then some ([], c :: t)
    else
      match splitAtPkg t (c = '\n') with
      | none => none
      | some (pre, rest) => some (c :: pre, rest)

/-- Scan forward to the first line-start opening bracket or the end of the
string: the extent of the package section after its header. -/
def splitSectionEnd : List Char → Bool → List Char × List Char
  | [], _ => ([], [])
  | c :: t, ls =>
    if ls && c = '[' then ([], c :: t)
    else (c :: (splitSectionEnd t (c = '\n')).1, (splitSectionEnd t (c = '\n')).2)

/-- Search the section for the first line-start match of the manifest version
pattern and return its captured triple, the current version. -/
def findVerMain : List Char → Bool → Option (List Char)
  | [], _ => none
  | c :: t, ls =>
    if ls then
      match verCore (c :: t) with
      | some (_, d, _) => some d
      | none => findVerMain t (c = '\n')
    else findVerMain t (c = '\n')

/-- Substitute the first line-start match of the manifest version pattern
with the given replacement text (the whole match, first group included, is
replaced). -/
def subVerMain (tmpl : List Char) : List Char → Bool → List Char
  | [], _ => []
  | c :: t, ls =>
    if ls then
      match verCore (c :: t) with
      | some (_, _, r) => tmpl ++ r
      | none => c :: subVerMain tmpl t (c = '\n')
    else c :: subVerMain tmpl t (c = '\n')

/-- The text the replacement template of main actually expands to: the raw
template escapes make the group reference a literal backslash-one, and the
escaped quotes stay escaped, so the whole matched version line is replaced by
this literal text. -/
def buggyTemplate (v : List Char) : List Char :=
  '\\' :: '1' :: '\\' :: '"' :: (v ++ ['\\', '"'])

/-- The abort sites of main on the manifest path. -/
inductive MainError where
  | noPackageSection
  | noVersionField
  | bumpFailed (e : BumpError)
deriving DecidableEq

/-- The manifest transformation of main: locate the first package section,
find the current version inside it, bump it, and substitute the first
version match of the section with the expanded template.  Returns the new
manifest text and the new version. -/
def mainRewrite (text kind : List Char) :
    Except MainError (List Char × List Char) :=
  match splitAtPkg text true with
  | none => Except.error MainError.noPackageSection
  | some (pre, rest) =>
    let afterH := rest.drop 9
    let se := splitSectionEnd afterH false
    match findVerMain se.1 true with
    | none => Except.error MainError.noVersionField
    | some cur =>
      match bump cur kind with
      | Except.error e => Except.error (MainError.bumpFailed e)
      | Except.ok newv =>
        Except.ok
          (pre ++ pkgLit ++ subVerMain (buggyTemplate newv) se.1 true ++ se.2,
           newv)

/-- Outcome comparison for bump up to the error classification: identical
successful values, or errors raised at the same site (the format error
message embeds the original argument, so only its site is compared). -/
def sameOutcome : Except BumpError (List Char) → Except BumpError (List Char) → Prop
  | Except.ok a, Except.ok b => a = b
  | Except.error (BumpError.invalidFormat _), Except.error (BumpError.invalidFormat _) => True
  | Except.error (BumpError.invalidKind a), Except.error (BumpError.invalidKind b) => a = b
  | _, _ => False

end BV

namespace BV

/-! Helper lemmas about takeWhile, dropWhile and digit strings. -/

theorem takeWhile_append_all {p : Char → Bool} :
    ∀ (xs ys : List Char), (∀ c ∈ xs, p c = true) →
      (xs ++ ys).takeWhile p = xs ++ ys.takeWhile p
  | [], _, _ => rfl
  | x :: xs, ys, h => by
    rw [List.cons_append, List.takeWhile_cons, if_pos (h x (by simp)),
      takeWhile_append_all xs ys (fun c hc => h c (by simp [hc])), List.cons_append]

theorem dropWhile_append_all {p : Char → Bool} :
    ∀ (xs ys : List Char), (∀ c ∈ xs, p c = true) →
      (xs ++ ys).dropWhile p = ys.dropWhile p
  | [], _, _ => rfl
  | x :: xs, ys, h => by
    rw [List.cons_append, List.dropWhile_cons, if_pos (h x (by simp)),
      dropWhile_append_all xs ys (fun c hc => h c (by simp [hc]))]

theorem takeWhile_all {p : Char → Bool} :
    ∀ (xs : List Char), (∀ c ∈ xs, p c = true) → xs.takeWhile p = xs
  | [], _ => rfl
  | x :: xs, h => by
    rw [List.takeWhile_cons, if_pos (h x (by simp)),
      takeWhile_all xs (fun c hc => h c (by simp [hc]))]

theorem dropWhile_all {p : Char → Bool} :
    ∀ (xs : List Char), (∀ c ∈ xs, p c = true) → xs.dropWhile p = []
  | [], _ => rfl
  | x :: xs, h => by
    rw [List.dropWhile_cons, if_pos (h x (by simp)),
      dropWhile_all xs (fun c hc => h c (by simp [hc]))]

theorem mem_takeWhile {p : Char → Bool} :
    ∀ (s : List Char) c, c ∈ s.takeWhile p → p c = true
  | [], c, h => by simp [List.takeWhile] at h
  | a :: t, c, h => by
    rw [List.takeWhile_cons] at h
    by_cases ha : p a = true
    · rw [if_pos ha] at h
      rcases List.mem_cons.mp h with h | h
      · subst h; exact ha
      · exact mem_takeWhile t c h
    · rw [if_neg ha] at h
      simp at h

theorem dropWhile_head {p : Char → Bool} :
    ∀ (s : List Char) c t, s.dropWhile p = c :: t → p c = false
  | [], c, t, h => by simp [List.dropWhile] at h
  | a :: s, c, t, h => by
    rw [List.dropWhile_cons] at h
    by_cases ha : p a = true
    · rw [if_pos ha] at h; exact dropWhile_head s c t h
    · rw [if_neg ha] at h
      cases h
      simpa using ha

/-! Digit rendering and parsing. -/

theorem isDigit_decDigit (n : Nat) : isDigit (decDigit n) = true := by
  unfold decDigit
  split <;> decide

theorem decDigit_toNat (n : Nat) (h : n < 10) : (decDigit n).toNat = 48 + n := by
  interval_cases n <;> decide

theorem decDigit_toNat_char (d : Char) (h : isDigit d = true) :
    decDigit (d.toNat - 48) = d := by
  have h2 : 48 ≤ d.toNat ∧ d.toNat ≤ 57 := by
    simpa [isDigit, Bool.and_eq_true, decide_eq_true_eq] using h
  have h3 : Char.ofNat d.toNat = d := Char.ofNat_toNat d
  have h4 : d.toNat = 48 ∨ d.toNat = 49 ∨ d.toNat = 50 ∨ d.toNat = 51 ∨ d.toNat = 52 ∨
      d.toNat = 53 ∨ d.toNat = 54 ∨ d.toNat = 55 ∨ d.toNat = 56 ∨ d.toNat = 57 := by omega
  rcases h4 with h4 | h4 | h4 | h4 | h4 | h4 | h4 | h4 | h4 | h4 <;>
    (rw [h4] at h3; rw [h4, ← h3]; decide)

theorem natToDecAux_digits : ∀ (f n : Nat), ∀ c ∈ natToDecAux f n, isDigit c = true := by
  intro f
  induction f with
  | zero => intro n c hc; simp [natToDecAux] at hc
  | succ f ih =>
    intro n c hc
    unfold natToDecAux at hc
    by_cases h : n < 10
    · rw [if_pos h] at hc
      rcases List.mem_singleton.mp hc with rfl
      exact isDigit_decDigit n
    · rw [if_neg h] at hc
      rcases List.mem_append.mp hc with hc | hc
      · exact ih _ _ hc
      · rcases List.mem_singleton.mp hc with rfl
        exact isDigit_decDigit _

theorem natToDec_digits (n : Nat) : ∀ c ∈ natToDec n, isDigit c = true :=
  natToDecAux_digits _ n

theorem natToDecAux_ne_nil (f n : Nat) (h : n < f) : natToDecAux f n ≠ [] := by
  cases f with
  | zero => omega
  | succ f =>
    unfold natToDecAux
    by_cases h10 : n < 10
    · rw [if_pos h10]; simp
    · rw [if_neg h10]; simp

theorem natToDec_ne_nil (n : Nat) : natToDec n ≠ [] :=
  natToDecAux_ne_nil _ n (Nat.lt_succ_self n)

theorem natToDecAux_fuel : ∀ (f g n : Nat), n < f → n < g → natToDecAux f n = natToDecAux g n := by
  intro f
  induction f with
  | zero => intro g n hf; omega
  | succ f ih =>
    intro g n hf hg
    cases g with
    | zero => omega
    | succ g =>
      show natToDecAux (f + 1) n = natToDecAux (g + 1) n
      unfold natToDecAux
      by_cases h10 : n < 10
      · rw [if_pos h10, if_pos h10]
      · have hdiv : n / 10 < n := Nat.div_lt_self (by omega) (by omega)
        rw [if_neg h10, if_neg h10, ih g (n / 10) (by omega) (by omega)]

theorem decVal_append_single (xs : List Char) (d : Char) :
    decVal (xs ++ [d]) = 10 * decVal xs + (d.toNat - 48) := by
  unfold decVal
  rw [List.foldl_append]
  rfl

theorem decVal_natToDecAux : ∀ (f n : Nat), n < f → decVal (natToDecAux f n) = n := by
  intro f
  induction f with
  | zero => intro n h; omega
  | succ f ih =>
    intro n h
    unfold natToDecAux
    by_cases h10 : n < 10
    · rw [if_pos h10]
      show decVal [decDigit n] = n
      unfold decVal
      rw [List.foldl_cons, List.foldl_nil, decDigit_toNat n h10]
      omega
    · have hdiv : n / 10 < n := Nat.div_lt_self (by omega) (by omega)
      rw [if_neg h10, decVal_append_single, ih (n / 10) (by omega),
        decDigit_toNat (n % 10) (Nat.mod_lt n (by omega))]
      omega

theorem decVal_natToDec (n : Nat) : decVal (natToDec n) = n :=
  decVal_natToDecAux _ n (Nat.lt_succ_self n)

theorem decVal_ge_init : ∀ (xs : List Char) (a : Nat),
    a ≤ xs.foldl (fun a c => 10 * a + (c.toNat - 48)) a
  | [], a => Nat.le_refl a
  | c :: t, a => by
    rw [List.foldl_cons]
    calc a ≤ 10 * a + (c.toNat - 48) := by omega
      _ ≤ _ := decVal_ge_init t _

theorem char_eq_of_toNat (x : Char) (n : Nat) (h : x.toNat = n) : x = Char.ofNat n := by
  rw [← h, Char.ofNat_toNat]

theorem decVal_pos (x : Char) (xs : List Char) (hd : isDigit x = true) (hx : x ≠ '0') :
    0 < decVal (x :: xs) := by
  have h2 : 48 ≤ x.toNat ∧ x.toNat ≤ 57 := by
    simpa [isDigit, Bool.and_eq_true, decide_eq_true_eq] using hd
  have h48 : x.toNat ≠ 48 := by
    intro hc
    exact hx (by rw [char_eq_of_toNat x 48 hc])
  unfold decVal
  rw [List.foldl_cons]
  calc 0 < 10 * 0 + (x.toNat - 48) := by omega
    _ ≤ _ := decVal_ge_init xs _

theorem noLead_of_head_ne (x : Char) (t : List Char) (h : x ≠ '0') :
    noLead (x :: t) = true := by
  unfold noLead
  split
  · rename_i heq
    injection heq with h1 h2
    exact absurd h1 h
  · rfl

theorem natToDec_decVal : ∀ (ds : List Char), ds ≠ [] → (∀ c ∈ ds, isDigit c = true) →
    noLead ds = true → natToDec (decVal ds) = ds := by
  intro ds
  induction ds using List.reverseRecOn with
  | nil => intro h; exact absurd rfl h
  | append_singleton xs d ih =>
    intro _ hdig hlead
    have hd : isDigit d = true := hdig d (by simp)
    have hdn : d.toNat - 48 < 10 := by
      have h2 : 48 ≤ d.toNat ∧ d.toNat ≤ 57 := by
        simpa [isDigit, Bool.and_eq_true, decide_eq_true_eq] using hd
      omega
    rw [decVal_append_single]
    by_cases hxs : xs = []
    · subst hxs
      show natToDec (10 * decVal [] + (d.toNat - 48)) = [d]
      have hz : decVal [] = 0 := rfl
      rw [hz]
      unfold natToDec natToDecAux
      rw [if_pos (by omega : 10 * 0 + (d.toNat - 48) < 10)]
      rw [show 10 * 0 + (d.toNat - 48) = d.toNat - 48 by omega]
      rw [decDigit_toNat_char d hd]
    · obtain ⟨x, t, rfl⟩ : ∃ x t, xs = x :: t := by
        cases xs with
        | nil => exact absurd rfl hxs
        | cons x t => exact ⟨x, t, rfl⟩
      have hx0 : x ≠ '0' := by
        intro hc
        subst hc
        cases t with
        | nil => simp [noLead] at hlead
        | cons y t => simp [noLead] at hlead
      have hpos : 0 < decVal (x :: t) :=
        decVal_pos x t (hdig x (by simp)) hx0
      have hlead2 : noLead (x :: t) = true := noLead_of_head_ne x t hx0
      have hdig2 : ∀ c ∈ x :: t, isDigit c = true := fun c hc => hdig c (by
        rcases List.mem_cons.mp hc with rfl | hc2
        · exact List.mem_cons_self _ _
        · exact List.mem_cons_of_mem _ (List.mem_append_left _ hc2))
      have hih : natToDec (decVal (x :: t)) = x :: t := ih (by simp) hdig2 hlead2
      set v := decVal (x :: t) with hv
      have hge : 10 ≤ 10 * v + (d.toNat - 48) := by omega
      unfold natToDec natToDecAux
      rw [if_neg (by omega)]
      have hq : (10 * v + (d.toNat - 48)) / 10 = v := by omega
      have hr : (10 * v + (d.toNat - 48)) % 10 = d.toNat - 48 := by omega
      rw [hq, hr, decDigit_toNat_char d hd]
      have hfuel : natToDecAux (10 * v + (d.toNat - 48)) v = natToDec v :=
        natToDecAux_fuel _ _ v (by omega) (Nat.lt_succ_self v)
      rw [hfuel, hih]

end BV

namespace BV

theorem takeWhile_cons_ff {p : Char → Bool} {c : Char} (h : p c = false) (xs : List Char) :
    (c :: xs).takeWhile p = [] := by
  simp [List.takeWhile_cons, h]

theorem dropWhile_cons_ff {p : Char → Bool} {c : Char} (h : p c = false) (xs : List Char) :
    (c :: xs).dropWhile p = c :: xs := by
  simp [List.dropWhile_cons, h]

theorem head?_cons_eq {α : Type} {l : List α} {c : α} (h : l.head? = some c) :
    l = c :: l.tail := by
  cases l with
  | nil => exact Option.noConfusion h
  | cons x t =>
    injection h with h
    subst h
    rfl

theorem matchTriple_build (a b c : List Char) (ha : a ≠ []) (hb : b ≠ []) (hc : c ≠ [])
    (hda : ∀ x ∈ a, isDigit x = true) (hdb : ∀ x ∈ b, isDigit x = true)
    (hdc : ∀ x ∈ c, isDigit x = true) :
    matchTriple (a ++ '.' :: (b ++ '.' :: c)) = some (a, b, c) := by
  have h1 : (a ++ '.' :: (b ++ '.' :: c)).takeWhile isDigit = a := by
    rw [takeWhile_append_all _ _ hda, takeWhile_cons_ff (by decide), List.append_nil]
  have h2 : (a ++ '.' :: (b ++ '.' :: c)).dropWhile isDigit = '.' :: (b ++ '.' :: c) := by
    rw [dropWhile_append_all _ _ hda, dropWhile_cons_ff (by decide)]
  have h3 : (b ++ '.' :: c).takeWhile isDigit = b := by
    rw [takeWhile_append_all _ _ hdb, takeWhile_cons_ff (by decide), List.append_nil]
  have h4 : (b ++ '.' :: c).dropWhile isDigit = '.' :: c := by
    rw [dropWhile_append_all _ _ hdb, dropWhile_cons_ff (by decide)]
  have h5 : c.takeWhile isDigit = c := takeWhile_all c hdc
  have h6 : c.dropWhile isDigit = [] := dropWhile_all c hdc
  simp only [matchTriple, h1, h2, List.tail_cons, h3, h4, h5, h6, List.head?_cons]
  rw [if_pos ⟨ha, trivial, hb, trivial, hc, trivial⟩]

theorem matchTriple_renderTriple (x y z : Nat) :
    matchTriple (renderTriple x y z) = some (natToDec x, natToDec y, natToDec z) :=
  matchTriple_build _ _ _ (natToDec_ne_nil x) (natToDec_ne_nil y) (natToDec_ne_nil z)
    (natToDec_digits x) (natToDec_digits y) (natToDec_digits z)

theorem matchTriple_inv {s a b c : List Char} (h : matchTriple s = some (a, b, c)) :
    s = a ++ '.' :: (b ++ '.' :: c) ∧ a ≠ [] ∧ b ≠ [] ∧ c ≠ [] ∧
      (∀ x ∈ a, isDigit x = true) ∧ (∀ x ∈ b, isDigit x = true) ∧
      (∀ x ∈ c, isDigit x = true) := by
  simp only [matchTriple] at h
  split at h
  · rename_i hcond
    obtain ⟨ha, hd1, hb, hd2, hc, he⟩ := hcond
    injection h with h
    injection h with h1 h
    injection h with h2 h3
    subst h1
    subst h2
    subst h3
    refine ⟨?_, ha, hb, hc, fun x hx => mem_takeWhile _ x hx,
      fun x hx => mem_takeWhile _ x hx, fun x hx => mem_takeWhile _ x hx⟩
    have hdw : s.dropWhile isDigit = '.' :: (s.dropWhile isDigit).tail := head?_cons_eq hd1
    set r2 := (s.dropWhile isDigit).tail with hr2
    have hdw2 : r2.dropWhile isDigit = '.' :: (r2.dropWhile isDigit).tail := head?_cons_eq hd2
    set r4 := (r2.dropWhile isDigit).tail with hr4
    have e3 : r4.takeWhile isDigit = r4 := by
      have := (List.takeWhile_append_dropWhile (p := isDigit) (l := r4))
      rw [he, List.append_nil] at this
      exact this
    conv_lhs => rw [← List.takeWhile_append_dropWhile (p := isDigit) (l := s)]
    rw [hdw]
    conv_lhs => rw [← List.takeWhile_append_dropWhile (p := isDigit) (l := r2)]
    rw [hdw2, e3]
  · exact Option.noConfusion h

/-! Lemmas about trimEnd and pyStrip. -/

theorem trimEnd_cons (c : Char) (t : List Char) :
    trimEnd (c :: t) = if trimEnd t = [] ∧ isWs c = true then [] else c :: trimEnd t :=
  rfl

theorem trimEnd_idem : ∀ s : List Char, trimEnd (trimEnd s) = trimEnd s
  | [] => rfl
  | c :: t => by
    rw [trimEnd_cons c t]
    by_cases hcond : trimEnd t = [] ∧ isWs c = true
    · rw [if_pos hcond]
      rfl
    · rw [if_neg hcond, trimEnd_cons c (trimEnd t), trimEnd_idem t, if_neg hcond]

theorem pyStrip_idem (s : List Char) : pyStrip (pyStrip s) = pyStrip s := by
  unfold pyStrip
  have h1 : (trimEnd (s.dropWhile isWs)).dropWhile isWs = trimEnd (s.dropWhile isWs) := by
    cases heq : s.dropWhile isWs with
    | nil => rfl
    | cons c t =>
      have hc : isWs c = false := dropWhile_head s c t heq
      rw [trimEnd_cons]
      by_cases hcond : trimEnd t = [] ∧ isWs c = true
      · rw [if_pos hcond]
        rfl
      · rw [if_neg hcond]
        simp [List.dropWhile_cons, hc]
  rw [h1, trimEnd_idem]

/-- Claim C2: for every version string of the form X.Y.Z (each component one or
more digits) and each kind among major, minor and patch, bump returns the
canonical serialization of the updated integer triple, which again matches the
digit triple pattern; in particular on 1.2.3 the three kinds give 2.0.0, 1.3.0
and 1.2.4, and patch on 0.0.0 gives 0.0.1. -/
theorem bump_increments_correctly :
    (∀ v a b c, matchTriple (pyStrip v) = some (a, b, c) →
      bump v "major".data = Except.ok (renderTriple (decVal a + 1) 0 0) ∧
      bump v "minor".data = Except.ok (renderTriple (decVal a) (decVal b + 1) 0) ∧
      bump v "patch".data = Except.ok (renderTriple (decVal a) (decVal b) (decVal c + 1))) ∧
    (∀ x y z : Nat, (matchTriple (renderTriple x y z)).isSome = true) ∧
    bump "1.2.3".data "major".data = Except.ok "2.0.0".data ∧
    bump "1.2.3".data "minor".data = Except.ok "1.3.0".data ∧
    bump "1.2.3".data "patch".data = Except.ok "1.2.4".data ∧
    bump "0.0.0".data "patch".data = Except.ok "0.0.1".data := by
  refine ⟨?_, ?_, by decide, by decide, by decide, by decide⟩
  · intro v a b c h
    simp only [bump, h]
    exact ⟨by simp, by simp, by simp⟩
  · intro x y z
    rw [matchTriple_renderTriple]
    rfl

/-- Witness for C2: the general part of the theorem applied to the concrete
version 7.8.9 with its hypothesis discharged by evaluation. -/
theorem bump_increments_correctly_witness :
    matchTriple (pyStrip "7.8.9".data) = some ("7".data, "8".data, "9".data) ∧
    bump "7.8.9".data "major".data =
      Except.ok (renderTriple (decVal "7".data + 1) 0 0) :=
  ⟨by decide,
    (bump_increments_correctly.1 "7.8.9".data "7".data "8".data "9".data (by decide)).1⟩

/-- Claim C3 counterexample: the input 01.2.3 matches the version pattern, yet
the parse-then-format round trip returns 1.2.3, not the original string, so
the round trip is not lossless on every pattern match. -/
theorem roundtrip_leading_zero_counterexample :
    (matchTriple "01.2.3".data).isSome = true ∧
    roundTrip "01.2.3".data = some "1.2.3".data ∧
    roundTrip "01.2.3".data ≠ some "01.2.3".data := by
  refine ⟨by decide, by decide, by decide⟩

/-- Claim C3 as amended: the parse-then-format round trip is lossless for
every input matching the version pattern whose three components carry no
superfluous leading zeros (each component is 0 or starts with a nonzero
digit); inputs with leading zeros such as 01.2.3 are re-serialized in
canonical form instead. -/
theorem roundtrip_no_leading_zeros :
    ∀ s a b c, matchTriple s = some (a, b, c) →
      noLead a = true → noLead b = true → noLead c = true →
      roundTrip s = some s := by
  intro s a b c h ha hb hc
  obtain ⟨hs, hna, hnb, hnc, hda, hdb, hdc⟩ := matchTriple_inv h
  simp only [roundTrip, h, renderTriple]
  rw [natToDec_decVal a hna hda ha, natToDec_decVal b hnb hdb hb,
    natToDec_decVal c hnc hdc hc, hs]

/-- Witness for the amended C3 at the concrete input 10.2.3. -/
theorem roundtrip_no_leading_zeros_witness :
    matchTriple "10.2.3".data = some ("10".data, "2".data, "3".data) ∧
    roundTrip "10.2.3".data = some "10.2.3".data :=
  ⟨by decide,
    roundtrip_no_leading_zeros "10.2.3".data "10".data "2".data "3".data
      (by decide) (by decide) (by decide) (by decide)⟩

end BV

namespace BV

/-- Claim C6 counterexample: the version argument with a leading space does
not match the anchored pattern (nothing else may appear in the string), yet
bump succeeds instead of failing with the format error, because bump strips
surrounding whitespace before matching; so bump does not fail with the format
error exactly when the argument fails the pattern. -/
theorem bump_invalid_format_counterexample :
    matchTriple " 1.2.3".data = none ∧
    bump " 1.2.3".data "patch".data = Except.ok "1.2.4".data := by
  exact ⟨by decide, by decide⟩

/-- Claim C6 as amended: bump fails with the invalid-format error exactly when
the argument, after stripping surrounding whitespace, does not match the digit
triple pattern, and fails with the invalid-kind error when the stripped
argument matches but the kind is none of major, minor, patch; in particular
1.2 with patch gives the format error and 1.2.3 with bogus the kind error. -/
theorem bump_error_classification_amended :
    (∀ v k, bump v k = Except.error (BumpError.invalidFormat v) ↔
      matchTriple (pyStrip v) = none) ∧
    (∀ v k a b c, matchTriple (pyStrip v) = some (a, b, c) →
      k ≠ "major".data → k ≠ "minor".data → k ≠ "patch".data →
      bump v k = Except.error (BumpError.invalidKind k)) ∧
    bump "1.2".data "patch".data = Except.error (BumpError.invalidFormat "1.2".data) ∧
    bump "1.2.3".data "bogus".data = Except.error (BumpError.invalidKind "bogus".data) := by
  refine ⟨?_, ?_, by decide, by decide⟩
  · intro v k
    constructor
    · intro h
      cases hm : matchTriple (pyStrip v) with
      | none => rfl
      | some t =>
        obtain ⟨a, b, c⟩ := t
        simp only [bump, hm] at h
        split_ifs at h
        simp at h
    · intro h
      simp only [bump, h]
  · intro v k a b c h h1 h2 h3
    simp only [bump, h]
    rw [if_neg h1, if_neg h2, if_neg h3]

/-- Witness for the amended C6 at the concrete arguments 5.6.7 and silly. -/
theorem bump_error_classification_amended_witness :
    matchTriple (pyStrip "5.6.7".data) = some ("5".data, "6".data, "7".data) ∧
    bump "5.6.7".data "silly".data = Except.error (BumpError.invalidKind "silly".data) :=
  ⟨by decide,
    bump_error_classification_amended.2.1 "5.6.7".data "silly".data
      "5".data "6".data "7".data (by decide) (by decide) (by decide) (by decide)⟩

/-- Claim C9: bump ignores leading and trailing whitespace in its version
argument: for every argument and kind the outcome equals the outcome on the
stripped argument (the format error embeds the original argument in its
message, so errors are compared by their raise site); in particular patch on
a version surrounded by a space and a newline succeeds. -/
theorem bump_strips_whitespace :
    (∀ v k, sameOutcome (bump v k) (bump (pyStrip v) k)) ∧
    bump " 1.2.3\n".data "patch".data = Except.ok "1.2.4".data := by
  constructor
  · intro v k
    unfold bump
    rw [pyStrip_idem]
    cases h : matchTriple (pyStrip v) with
    | none => exact trivial
    | some t =>
      obtain ⟨a, b, c⟩ := t
      split_ifs <;> rfl
  · decide

/-- Claim C10: format validation precedes kind validation: whenever the
stripped argument fails the pattern, bump raises the invalid-format error
whatever the kind is, and the invalid-kind error is only ever raised when the
stripped argument matches the pattern; in particular 1.2 with the unknown
kind bogus gives the format error, not the kind error. -/
theorem bump_format_before_kind :
    (∀ v k, matchTriple (pyStrip v) = none →
      bump v k = Except.error (BumpError.invalidFormat v)) ∧
    (∀ v k kk, bump v k = Except.error (BumpError.invalidKind kk) →
      (matchTriple (pyStrip v)).isSome = true) ∧
    bump "1.2".data "bogus".data = Except.error (BumpError.invalidFormat "1.2".data) := by
  refine ⟨?_, ?_, by decide⟩
  · intro v k h
    simp only [bump, h]
  · intro v k kk h
    cases hm : matchTriple (pyStrip v) with
    | some t => rfl
    | none =>
      simp only [bump, hm] at h
      simp at h

/-- Witness for C10 at the concrete arguments 4.5 and weird. -/
theorem bump_format_before_kind_witness :
    matchTriple (pyStrip "4.5".data) = none ∧
    bump "4.5".data "weird".data = Except.error (BumpError.invalidFormat "4.5".data) :=
  ⟨by decide, bump_format_before_kind.1 "4.5".data "weird".data (by decide)⟩

/-- Claim C8: when the lockfile file is absent, patch_lockfile reports no
change, writes nothing, raises nothing, and main prints no lockfile-related
line for it. -/
theorem patch_lockfile_missing_file_noop :
    ∀ crate v, patch_lockfile none crate v = (false, none) ∧
      lockfileMessages (patch_lockfile none crate v).1 v = [] := by
  intro crate v
  exact ⟨rfl, rfl⟩

end BV

namespace BV

/-! Reconstruction and fuel lemmas for the lockfile scanners. -/

theorem lit_inv : ∀ (p s r : List Char), lit p s = some r → s = p ++ r
  | [], s, r, h => by
    injection h with h
  | _ :: _, [], _, h => Option.noConfusion h
  | p :: ps, c :: cs, r, h => by
    unfold lit at h
    split_ifs at h with hc
    · subst hc
      exact congrArg (c :: ·) (lit_inv ps cs r h)

theorem isPrefixOf_eq_append : ∀ (p s : List Char), p.isPrefixOf s = true →
    s = p ++ s.drop p.length
  | [], _, _ => rfl
  | p :: ps, [], h => by simp [List.isPrefixOf] at h
  | p :: ps, c :: cs, h => by
    simp only [List.isPrefixOf, Bool.and_eq_true, beq_iff_eq] at h
    obtain ⟨h1, h2⟩ := h
    subst h1
    simp only [List.length_cons, List.drop_succ_cons, List.cons_append]
    exact congrArg (p :: ·) (isPrefixOf_eq_append ps cs h2)

theorem splitAtMarker_inv : ∀ (s : List Char) (ls : Bool) (pre rest : List Char),
    splitAtMarker s ls = some (pre, rest) →
    s = pre ++ rest ∧ pkgM.isPrefixOf rest = true := by
  intro s
  induction s with
  | nil => intro ls pre rest h; exact Option.noConfusion h
  | cons c t ih =>
    intro ls pre rest h
    unfold splitAtMarker at h
    split_ifs at h with hm
    · injection h with h
      injection h with h1 h2
      subst h1
      subst h2
      refine ⟨rfl, ?_⟩
      rw [Bool.and_eq_true] at hm
      exact hm.2
    · cases hrec : splitAtMarker t (c = '\n') with
      | none => rw [hrec] at h; exact Option.noConfusion h
      | some pr =>
        obtain ⟨pre2, rest2⟩ := pr
        rw [hrec] at h
        injection h with h
        injection h with h1 h2
        subst h1
        subst h2
        obtain ⟨e1, e2⟩ := ih (c = '\n') pre2 rest2 hrec
        exact ⟨by rw [List.cons_append, ← e1], e2⟩

theorem splitBlockEnd_recon : ∀ (s : List Char) (ls : Bool),
    (splitBlockEnd s ls).1 ++ (splitBlockEnd s ls).2 = s := by
  intro s
  induction s with
  | nil => intro ls; rfl
  | cons c t ih =>
    intro ls
    unfold splitBlockEnd
    split_ifs with hm
    · rfl
    · simp only [List.cons_append]
      rw [ih (c = '\n')]

theorem pkgM_length : pkgM.length = 11 := by decide

theorem marker_decomp (s : List Char) (ls : Bool) (pre rest : List Char)
    (h : splitAtMarker s ls = some (pre, rest)) :
    s = pre ++ pkgM ++ ((splitBlockEnd (rest.drop 11) false).1 ++
      (splitBlockEnd (rest.drop 11) false).2) ∧
    11 + (splitBlockEnd (rest.drop 11) false).2.length ≤ s.length := by
  obtain ⟨e1, e2⟩ := splitAtMarker_inv s ls pre rest h
  have e3 : rest = pkgM ++ rest.drop 11 := by
    have := isPrefixOf_eq_append pkgM rest e2
    rwa [pkgM_length] at this
  have e4 : (splitBlockEnd (rest.drop 11) false).1 ++
      (splitBlockEnd (rest.drop 11) false).2 = rest.drop 11 :=
    splitBlockEnd_recon _ _
  constructor
  · rw [e4, List.append_assoc, ← e3, e1]
  · have hlen : s.length = pre.length + (11 + (rest.drop 11).length) := by
      rw [e1, e3]
      simp [pkgM_length]
    have hlen2 : (splitBlockEnd (rest.drop 11) false).2.length ≤ (rest.drop 11).length := by
      conv_rhs => rw [← e4]
      rw [List.length_append]
      omega
    omega

theorem patchLoopAux_fuel (crate v : List Char) :
    ∀ (f g : Nat) (s : List Char), s.length < f → s.length < g →
      patchLoopAux crate v f s = patchLoopAux crate v g s := by
  intro f
  induction f with
  | zero => intro g s hf; omega
  | succ f ih =>
    intro g s hf hg
    cases g with
    | zero => omega
    | succ g =>
      show patchLoopAux crate v (f + 1) s = patchLoopAux crate v (g + 1) s
      unfold patchLoopAux
      cases hsp : splitAtMarker s true with
      | none => rfl
      | some pr =>
        obtain ⟨pre, rest⟩ := pr
        obtain ⟨-, hlen⟩ := marker_decomp s true pre rest hsp
        have hr : (splitBlockEnd (rest.drop 11) false).2.length < f := by omega
        have hr2 : (splitBlockEnd (rest.drop 11) false).2.length < g := by omega
        simp only [ih g _ hr hr2]

theorem lockSegsAux_fuel :
    ∀ (f g : Nat) (s : List Char), s.length < f → s.length < g →
      lockSegsAux f s = lockSegsAux g s := by
  intro f
  induction f with
  | zero => intro g s hf; omega
  | succ f ih =>
    intro g s hf hg
    cases g with
    | zero => omega
    | succ g =>
      show lockSegsAux (f + 1) s = lockSegsAux (g + 1) s
      unfold lockSegsAux
      cases hsp : splitAtMarker s true with
      | none => rfl
      | some pr =>
        obtain ⟨pre, rest⟩ := pr
        obtain ⟨-, hlen⟩ := marker_decomp s true pre rest hsp
        have hr : (splitBlockEnd (rest.drop 11) false).2.length < f := by omega
        have hr2 : (splitBlockEnd (rest.drop 11) false).2.length < g := by omega
        simp only [ih g _ hr hr2]

theorem lockJoin_lockSegsAux : ∀ (f : Nat) (s : List Char), s.length < f →
    lockJoin (lockSegsAux f s) = s := by
  intro f
  induction f with
  | zero => intro s hf; omega
  | succ f ih =>
    intro s hf
    unfold lockSegsAux
    cases hsp : splitAtMarker s true with
    | none => simp [lockJoin]
    | some pr =>
      obtain ⟨pre, rest⟩ := pr
      obtain ⟨e1, hlen⟩ := marker_decomp s true pre rest hsp
      have hr : (splitBlockEnd (rest.drop 11) false).2.length < f := by omega
      have hrec := ih (splitBlockEnd (rest.drop 11) false).2 hr
      simp only [lockJoin] at hrec ⊢
      simp only [List.map_cons, List.flatten_cons]
      rw [e1]
      conv_rhs => rw [← hrec]
      simp [List.append_assoc]

theorem patchLoopAux_segs (crate v : List Char) :
    ∀ (f : Nat) (s : List Char), s.length < f →
      patchLoopAux crate v f s =
        (segsChanged crate v (lockSegsAux f s).2,
          (lockSegsAux f s).1 ++
            ((lockSegsAux f s).2.map fun p =>
              pkgM ++ patchBlockB crate v p.1 ++ p.2).flatten) := by
  intro f
  induction f with
  | zero => intro s hf; omega
  | succ f ih =>
    intro s hf
    cases hsp : splitAtMarker s true with
    | none => simp [patchLoopAux, lockSegsAux, hsp, segsChanged]
    | some pr =>
      obtain ⟨pre, rest⟩ := pr
      obtain ⟨e1, hlen⟩ := marker_decomp s true pre rest hsp
      have hr : (splitBlockEnd (rest.drop 11) false).2.length < f := by omega
      have hrec := ih (splitBlockEnd (rest.drop 11) false).2 hr
      simp only [patchLoopAux, lockSegsAux, hsp]
      rw [hrec]
      simp only [segsChanged, List.any_cons, List.map_cons, List.flatten_cons,
        Prod.mk.injEq]
      constructor
      · by_cases hb : patchBlockB crate v (splitBlockEnd (rest.drop 11) false).1 =
            (splitBlockEnd (rest.drop 11) false).1
        · rw [if_pos hb, if_pos hb]
          simp [segsChanged]
        · rw [if_neg hb, if_neg hb]
          simp
      · simp [List.append_assoc]

end BV

namespace BV

theorem wsDollarDrop_inv : ∀ (s r : List Char), wsDollarDrop s = some r →
    ∃ eaten, s = eaten ++ r ∧ (∀ c ∈ eaten, isWs c = true) ∧
      (r = [] ∨ r.head? = some '\n') := by
  intro s
  induction s with
  | nil =>
    intro r h
    injection h with h
    exact ⟨[], by rw [← h]; rfl, by simp, Or.inl h.symm⟩
  | cons c t ih =>
    intro r h
    unfold wsDollarDrop at h
    by_cases hws : isWs c = true
    · rw [if_pos hws] at h
      cases hrec : wsDollarDrop t with
      | some r2 =>
        rw [hrec] at h
        injection h with h
        subst h
        obtain ⟨eaten, he1, he2, he3⟩ := ih r2 hrec
        refine ⟨c :: eaten, ?_, ?_, he3⟩
        · rw [List.cons_append, ← he1]
        · intro x hx
          rcases List.mem_cons.mp hx with rfl | hx
          · exact hws
          · exact he2 x hx
      | none =>
        rw [hrec] at h
        by_cases hnl : c = '\n'
        · rw [if_pos hnl] at h
          injection h with h
          refine ⟨[], by rw [← h]; rfl, by simp, Or.inr ?_⟩
          rw [← h, hnl]
          rfl
        · rw [if_neg hnl] at h
          exact Option.noConfusion h
    · rw [if_neg hws] at h
      exact Option.noConfusion h

theorem tripleTake_inv {s d r : List Char} (h : tripleTake s = some (d, r)) :
    s = d ++ '"' :: r := by
  simp only [tripleTake] at h
  split at h
  · rename_i hcond
    obtain ⟨ha, hd1, hb, hd2, hc, he⟩ := hcond
    injection h with h
    injection h with h1 h2
    subst h2
    have hdw : s.dropWhile isDigit = '.' :: (s.dropWhile isDigit).tail := head?_cons_eq hd1
    set r2 := (s.dropWhile isDigit).tail with hr2
    have hdw2 : r2.dropWhile isDigit = '.' :: (r2.dropWhile isDigit).tail := head?_cons_eq hd2
    set r4 := (r2.dropWhile isDigit).tail with hr4
    have hdw3 : r4.dropWhile isDigit = '"' :: (r4.dropWhile isDigit).tail := head?_cons_eq he
    rw [← h1]
    conv_lhs => rw [← List.takeWhile_append_dropWhile (p := isDigit) (l := s)]
    rw [hdw]
    conv_lhs => rw [← List.takeWhile_append_dropWhile (p := isDigit) (l := r2)]
    rw [hdw2]
    conv_lhs => rw [← List.takeWhile_append_dropWhile (p := isDigit) (l := r4)]
    rw [hdw3]
    simp [List.append_assoc]
  · exact Option.noConfusion h

theorem tripleTake_build (d : List Char) (hm : (matchTriple d).isSome = true) :
    ∀ rest, tripleTake (d ++ '"' :: rest) = some (d, rest) := by
  intro rest
  cases hmt : matchTriple d with
  | none => rw [hmt] at hm; exact Bool.noConfusion hm
  | some tr =>
    obtain ⟨a, b, c⟩ := tr
    obtain ⟨hs, hna, hnb, hnc, hda, hdb, hdc⟩ := matchTriple_inv hmt
    subst hs
    have h1 : ((a ++ '.' :: (b ++ '.' :: c)) ++ '"' :: rest).takeWhile isDigit = a := by
      rw [List.append_assoc, List.cons_append, takeWhile_append_all _ _ hda,
        takeWhile_cons_ff (by decide), List.append_nil]
    have h2 : ((a ++ '.' :: (b ++ '.' :: c)) ++ '"' :: rest).dropWhile isDigit =
        '.' :: ((b ++ '.' :: c) ++ '"' :: rest) := by
      rw [List.append_assoc, List.cons_append, dropWhile_append_all _ _ hda,
        dropWhile_cons_ff (by decide)]
    have h3 : ((b ++ '.' :: c) ++ '"' :: rest).takeWhile isDigit = b := by
      rw [List.append_assoc, List.cons_append, takeWhile_append_all _ _ hdb,
        takeWhile_cons_ff (by decide), List.append_nil]
    have h4 : ((b ++ '.' :: c) ++ '"' :: rest).dropWhile isDigit =
        '.' :: (c ++ '"' :: rest) := by
      rw [List.append_assoc, List.cons_append, dropWhile_append_all _ _ hdb,
        dropWhile_cons_ff (by decide)]
    have h5 : (c ++ '"' :: rest).takeWhile isDigit = c := by
      rw [takeWhile_append_all _ _ hdc, takeWhile_cons_ff (by decide), List.append_nil]
    have h6 : (c ++ '"' :: rest).dropWhile isDigit = '"' :: rest := by
      rw [dropWhile_append_all _ _ hdc, dropWhile_cons_ff (by decide)]
    simp only [tripleTake, h1, h2, List.tail_cons, h3, h4, h5, h6, List.head?_cons]
    rw [if_pos ⟨hna, trivial, hnb, trivial, hnc, trivial⟩]

theorem verCore_inv {s g1 d s4 : List Char} (h : verCore s = some (g1, d, s4)) :
    s = g1 ++ '"' :: (d ++ '"' :: s4) ∧
    ∃ w1 w2, g1 = "version".data ++ (w1 ++ '=' :: w2) ∧
      (∀ x ∈ w1, isWs x = true) ∧ (∀ x ∈ w2, isWs x = true) := by
  cases hlit : lit "version".data s with
  | none =>
    simp only [verCore, hlit] at h
    exact Option.noConfusion h
  | some s1 =>
    simp only [verCore, hlit] at h
    split_ifs at h with h1 h2
    cases htt : tripleTake ((s1.dropWhile isWs).tail.dropWhile isWs).tail with
    | none => rw [htt] at h; exact Option.noConfusion h
    | some pr =>
      obtain ⟨d2, s42⟩ := pr
      rw [htt] at h
      injection h with h
      injection h with hg h
      injection h with hd hs4
      subst hd
      subst hs4
      have e0 : s = "version".data ++ s1 := lit_inv _ _ _ hlit
      have hdw : s1.dropWhile isWs = '=' :: (s1.dropWhile isWs).tail := head?_cons_eq h1
      set r1 := (s1.dropWhile isWs).tail with hr1
      have hdw2 : r1.dropWhile isWs = '"' :: (r1.dropWhile isWs).tail := head?_cons_eq h2
      set r2 := (r1.dropWhile isWs).tail with hr2
      have ett : r2 = d2 ++ '"' :: s42 := tripleTake_inv htt
      constructor
      · rw [e0, ← hg]
        conv_lhs => rw [← List.takeWhile_append_dropWhile (p := isWs) (l := s1)]
        rw [hdw]
        conv_lhs => rw [← List.takeWhile_append_dropWhile (p := isWs) (l := r1)]
        rw [hdw2, ett]
        simp [List.append_assoc]
      · refine ⟨s1.takeWhile isWs, r1.takeWhile isWs, ?_,
          fun x hx => mem_takeWhile _ x hx, fun x hx => mem_takeWhile _ x hx⟩
        rw [← hg]
        simp [List.append_assoc]

theorem verMatchLock_inv {s g1 r : List Char} (h : verMatchLock s = some (g1, r)) :
    ∃ d eaten, s = g1 ++ '"' :: (d ++ '"' :: (eaten ++ r)) ∧
      (∀ x ∈ eaten, isWs x = true) ∧ (r = [] ∨ r.head? = some '\n') ∧
      ∃ w1 w2, g1 = "version".data ++ (w1 ++ '=' :: w2) ∧
        (∀ x ∈ w1, isWs x = true) ∧ (∀ x ∈ w2, isWs x = true) := by
  cases hvc : verCore s with
  | none =>
    simp only [verMatchLock, hvc] at h
    exact Option.noConfusion h
  | some tr =>
    obtain ⟨g2, d2, s42⟩ := tr
    simp only [verMatchLock, hvc] at h
    cases hwd : wsDollarDrop s42 with
    | none => rw [hwd] at h; exact Option.noConfusion h
    | some r2 =>
      rw [hwd] at h
      injection h with h
      injection h with hg hr
      subst hg
      subst hr
      obtain ⟨e0, hg⟩ := verCore_inv hvc
      obtain ⟨eaten, he1, he2, he3⟩ := wsDollarDrop_inv s42 r2 hwd
      refine ⟨d2, eaten, ?_, he2, he3, hg⟩
      rw [e0, he1]

theorem subVer_decomp (v : List Char) : ∀ (s : List Char) (ls : Bool),
    subVerLock v s ls = s ∨ ∃ pre g1 old eaten rest,
      s = pre ++ (g1 ++ '"' :: (old ++ '"' :: (eaten ++ rest))) ∧
      subVerLock v s ls = pre ++ (g1 ++ '"' :: (v ++ '"' :: rest)) ∧
      (∀ x ∈ eaten, isWs x = true) := by
  intro s
  induction s with
  | nil => intro ls; exact Or.inl rfl
  | cons c t ih =>
    intro ls
    cases ls with
    | true =>
      cases hvm : verMatchLock (c :: t) with
      | some pr =>
        obtain ⟨g1, r⟩ := pr
        obtain ⟨old, eaten, he, hws, hr, hg⟩ := verMatchLock_inv hvm
        right
        refine ⟨[], g1, old, eaten, r, by simpa using he, ?_, hws⟩
        simp only [subVerLock, hvm, if_pos]
        rfl
      | none =>
        rcases ih (c = '\n') with h1 | ⟨pre, g1, old, eaten, rest, he1, he2, he3⟩
        · left
          simp only [subVerLock, hvm, if_pos]
          rw [h1]
        · right
          refine ⟨c :: pre, g1, old, eaten, rest, ?_, ?_, he3⟩
          · rw [he1]
            rfl
          · simp only [subVerLock, hvm, if_pos]
            rw [he2]
            rfl
    | false =>
      rcases ih (c = '\n') with h1 | ⟨pre, g1, old, eaten, rest, he1, he2, he3⟩
      · left
        simp only [subVerLock]
        rw [if_neg (by decide), h1]
      · right
        refine ⟨c :: pre, g1, old, eaten, rest, ?_, ?_, he3⟩
        · rw [he1]
          rfl
        · simp only [subVerLock]
          rw [if_neg (by decide), he2]
          rfl

end BV

namespace BV

set_option maxRecDepth 100000 in
/-- Claim C4: patch_lockfile walks every marker block of the lockfile text:
the text decomposes into the segments before and between blocks and the
blocks themselves, each block whose content carries a name line for the
target crate is replaced by the substitution of its first version-line match
(the other bytes of the block and every non-matching block and segment are
kept), and in particular a lockfile with two blocks named foo and one named
bar has both foo versions updated and bar untouched. -/
theorem patch_lockfile_updates_all_matching_blocks :
    (∀ s, lockJoin (lockSegs s) = s) ∧
    (∀ crate v s, patchText crate v s =
      (segsChanged crate v (lockSegs s).2,
        (lockSegs s).1 ++
          ((lockSegs s).2.map fun p => pkgM ++ patchBlockB crate v p.1 ++ p.2).flatten)) ∧
    (∀ crate v b, findNameLS crate b true = false → patchBlockB crate v b = b) ∧
    (∀ v b, subVerLock v b true = b ∨ ∃ pre g1 old eaten rest,
      b = pre ++ (g1 ++ '"' :: (old ++ '"' :: (eaten ++ rest))) ∧
      subVerLock v b true = pre ++ (g1 ++ '"' :: (v ++ '"' :: rest)) ∧
      (∀ x ∈ eaten, isWs x = true)) ∧
    patchText "foo".data "1.3.0".data
      "[[package]]\nname = \"foo\"\nversion = \"1.2.3\"\nsource = \"a\"\n[[package]]\nname = \"bar\"\nversion = \"2.0.0\"\nsource = \"b\"\n[[package]]\nname = \"foo\"\nversion = \"1.2.3\"\nsource = \"c\"\n".data =
      (true,
        "[[package]]\nname = \"foo\"\nversion = \"1.3.0\"\nsource = \"a\"\n[[package]]\nname = \"bar\"\nversion = \"2.0.0\"\nsource = \"b\"\n[[package]]\nname = \"foo\"\nversion = \"1.3.0\"\nsource = \"c\"\n".data) := by
  refine ⟨?_, ?_, ?_, ?_, by decide⟩
  · intro s
    exact lockJoin_lockSegsAux _ s (Nat.lt_succ_self _)
  · intro crate v s
    exact patchLoopAux_segs crate v _ s (Nat.lt_succ_self _)
  · intro crate v b h
    simp [patchBlockB, h]
  · intro v b
    exact subVer_decomp v b true

/-- Witness for C4: the non-matching-block part of the theorem applied to a
concrete block naming a different crate. -/
theorem patch_lockfile_updates_all_matching_blocks_witness :
    findNameLS "foo".data "\nname = \"bar\"\n".data true = false ∧
    patchBlockB "foo".data "9.9.9".data "\nname = \"bar\"\n".data =
      "\nname = \"bar\"\n".data :=
  ⟨by decide,
    patch_lockfile_updates_all_matching_blocks.2.2.1 "foo".data "9.9.9".data
      "\nname = \"bar\"\n".data (by decide)⟩

set_option maxRecDepth 100000 in
/-- Claim C5 counterexample: on a lockfile whose foo block ends with its
version line, the version pattern consumes the trailing newline, so the first
patch glues the next block marker onto the replaced line; the second run with
the same arguments then reports a change again and rewrites the version of
the unrelated bar block, so patch_lockfile is not idempotent. -/
theorem patch_lockfile_not_idempotent_counterexample :
    patchText "foo".data "1.3.0".data
      "[[package]]\nname = \"foo\"\nversion = \"1.2.3\"\n[[package]]\nname = \"bar\"\nversion = \"9.9.9\"\n".data =
      (true,
        "[[package]]\nname = \"foo\"\nversion = \"1.3.0\"[[package]]\nname = \"bar\"\nversion = \"9.9.9\"\n".data) ∧
    patchText "foo".data "1.3.0".data
      "[[package]]\nname = \"foo\"\nversion = \"1.3.0\"[[package]]\nname = \"bar\"\nversion = \"9.9.9\"\n".data =
      (true,
        "[[package]]\nname = \"foo\"\nversion = \"1.3.0\"[[package]]\nname = \"bar\"\nversion = \"1.3.0\"".data) ∧
    "[[package]]\nname = \"foo\"\nversion = \"1.3.0\"[[package]]\nname = \"bar\"\nversion = \"1.3.0\"".data ≠
      "[[package]]\nname = \"foo\"\nversion = \"1.3.0\"[[package]]\nname = \"bar\"\nversion = \"9.9.9\"\n".data := by
  refine ⟨by decide, by decide, by decide⟩

end BV

namespace BV

/-! Character class facts. -/

theorem ws_toNat (c : Char) (h : isWs c = true) :
    c.toNat = 32 ∨ c.toNat = 9 ∨ c.toNat = 10 ∨ c.toNat = 13 ∨
      c.toNat = 11 ∨ c.toNat = 12 := by
  simp only [isWs, Bool.or_eq_true, decide_eq_true_eq] at h
  rcases h with ((((h | h) | h) | h) | h) | h <;> subst h <;> decide

theorem lower_not_ws (c : Char) (h : isLower c = true) : isWs c = false := by
  cases hw : isWs c
  · rfl
  · have h2 := ws_toNat c hw
    simp only [isLower, Bool.and_eq_true, decide_eq_true_eq] at h
    omega

theorem lower_ne (c : Char) (h : isLower c = true) (d : Char)
    (hd : d.toNat < 97 ∨ 122 < d.toNat) : c ≠ d := by
  intro hc
  subst hc
  simp only [isLower, Bool.and_eq_true, decide_eq_true_eq] at h
  omega

theorem digit_not_nl (c : Char) (h : isDigit c = true) : c ≠ '\n' := by
  intro hc
  subst hc
  simp [isDigit] at h

/-! More takeWhile and dropWhile facts. -/

theorem dropWhile_nil_all {p : Char → Bool} :
    ∀ (xs : List Char), xs.dropWhile p = [] → ∀ c ∈ xs, p c = true := by
  intro xs
  induction xs with
  | nil => intro _ c hc; simp at hc
  | cons x t ih =>
    intro h c hc
    rw [List.dropWhile_cons] at h
    by_cases hx : p x = true
    · rw [if_pos hx] at h
      rcases List.mem_cons.mp hc with rfl | hc
      · exact hx
      · exact ih h c hc
    · rw [if_neg hx] at h
      exact absurd h (by simp)

theorem dropWhile_append_stop {p : Char → Bool} :
    ∀ (xs ys : List Char), xs.dropWhile p ≠ [] →
      (xs ++ ys).dropWhile p = xs.dropWhile p ++ ys := by
  intro xs
  induction xs with
  | nil => intro ys h; exact absurd rfl h
  | cons x t ih =>
    intro ys h
    simp only [List.cons_append, List.dropWhile_cons] at h ⊢
    by_cases hx : p x = true
    · rw [if_pos hx] at h
      rw [if_pos hx, if_pos hx]
      exact ih ys h
    · rw [if_neg hx, if_neg hx]
      rw [List.cons_append]

theorem takeWhile_append_stop {p : Char → Bool} :
    ∀ (xs ys : List Char), xs.dropWhile p ≠ [] →
      (xs ++ ys).takeWhile p = xs.takeWhile p := by
  intro xs
  induction xs with
  | nil => intro ys h; exact absurd rfl h
  | cons x t ih =>
    intro ys h
    rw [List.dropWhile_cons] at h
    rw [List.cons_append, List.takeWhile_cons, List.takeWhile_cons]
    by_cases hx : p x = true
    · rw [if_pos hx] at h
      rw [if_pos hx, if_pos hx, ih ys h]
    · rw [if_neg hx] at h
      rw [if_neg hx, if_neg hx]

theorem all_eq_dropWhile_isEmpty {p : Char → Bool} :
    ∀ (xs : List Char), xs.all p = (xs.dropWhile p).isEmpty := by
  intro xs
  induction xs with
  | nil => rfl
  | cons x t ih =>
    rw [List.all_cons, List.dropWhile_cons]
    by_cases hx : p x = true
    · rw [if_pos hx, hx, Bool.true_and, ih]
    · rw [if_neg hx]
      have hx2 : p x = false := by
        cases hpx : p x
        · rfl
        · exact absurd hpx hx
      rw [hx2, Bool.false_and]
      rfl

/-! Locality of lit. -/

theorem lit_ext : ∀ (p l rest : List Char), (∀ c ∈ p, c ≠ '\n') →
    lit p (l ++ '\n' :: rest) =
      (match lit p l with
       | some l2 => some (l2 ++ '\n' :: rest)
       | none => none) := by
  intro p
  induction p with
  | nil => intro l rest _; rfl
  | cons x ps ih =>
    intro l rest hp
    cases l with
    | nil =>
      show lit (x :: ps) ('\n' :: rest) = none
      unfold lit
      rw [if_neg (fun hc => hp x (by simp) hc.symm)]
    | cons c cs =>
      show lit (x :: ps) (c :: (cs ++ '\n' :: rest)) = _
      unfold lit
      by_cases hc : c = x
      · rw [if_pos hc, if_pos hc]
        exact ih cs rest (fun d hd => hp d (by simp [hd]))
      · rw [if_neg hc, if_neg hc]

theorem lit_self_append : ∀ (p x : List Char), lit p (p ++ x) = some x := by
  intro p
  induction p with
  | nil => intro x; rfl
  | cons c ps ih =>
    intro x
    show lit (c :: ps) (c :: (ps ++ x)) = some x
    unfold lit
    rw [if_pos rfl]
    exact ih x

/-! Locality of the whitespace-then-end-of-line matcher. -/

theorem wsDollarDrop_cons_ws (c : Char) (x : List Char) (hw : isWs c = true)
    (hn : c ≠ '\n') : wsDollarDrop (c :: x) = wsDollarDrop x := by
  cases h : wsDollarDrop x with
  | some r =>
    show wsDollarDrop (c :: x) = some r
    unfold wsDollarDrop
    rw [if_pos hw, h]
  | none =>
    show wsDollarDrop (c :: x) = none
    unfold wsDollarDrop
    rw [if_pos hw, h]
    show (if c = '\n' then some (c :: x) else none) = none
    rw [if_neg hn]

theorem wsDollarDrop_ext (rest : List Char)
    (hr : ∃ c t, rest = c :: t ∧ isWs c = false) :
    ∀ (trail : List Char), (∀ c ∈ trail, c ≠ '\n') →
      wsDollarDrop (trail ++ '\n' :: rest) =
        (if (trail.dropWhile isWs).isEmpty = true then some ('\n' :: rest) else none) := by
  intro trail
  induction trail with
  | nil =>
    intro _
    obtain ⟨c, t, rfl, hcw⟩ := hr
    rw [if_pos (show ((List.dropWhile isWs []).isEmpty = true) from rfl)]
    show wsDollarDrop ('\n' :: c :: t) = some ('\n' :: c :: t)
    unfold wsDollarDrop
    rw [if_pos (by decide)]
    have h2 : wsDollarDrop (c :: t) = none := by
      unfold wsDollarDrop
      rw [if_neg (by simp [hcw])]
    rw [h2, if_pos rfl]
  | cons x t ih =>
    intro hnl
    have hx : x ≠ '\n' := hnl x (by simp)
    by_cases hw : isWs x = true
    · rw [List.cons_append, wsDollarDrop_cons_ws x _ hw hx,
        ih (fun c hc => hnl c (by simp [hc]))]
      rw [List.dropWhile_cons, if_pos hw]
    · show wsDollarDrop (x :: (t ++ '\n' :: rest)) = _
      unfold wsDollarDrop
      rw [if_neg hw, List.dropWhile_cons, if_neg hw]
      rfl

theorem wsDollarDrop_ext_none :
    ∀ (trail : List Char) (y : List Char), (∀ c ∈ trail, c ≠ '\n') →
      (trail.dropWhile isWs).isEmpty = false → wsDollarDrop (trail ++ y) = none := by
  intro trail
  induction trail with
  | nil => intro y _ h; simp at h
  | cons x t ih =>
    intro y hnl hne
    have hx : x ≠ '\n' := hnl x (by simp)
    rw [List.dropWhile_cons] at hne
    by_cases hw : isWs x = true
    · rw [if_pos hw] at hne
      rw [List.cons_append, wsDollarDrop_cons_ws x _ hw hx]
      exact ih y (fun c hc => hnl c (by simp [hc])) hne
    · show wsDollarDrop (x :: (t ++ y)) = none
      unfold wsDollarDrop
      rw [if_neg hw]

theorem wsEnd_no_nl : ∀ (t : List Char), (∀ c ∈ t, c ≠ '\n') →
    wsEnd t = (t.dropWhile isWs).isEmpty := by
  intro t
  induction t with
  | nil => intro _; rfl
  | cons x ts ih =>
    intro hnl
    have hx : x ≠ '\n' := hnl x (by simp)
    rw [List.dropWhile_cons]
    by_cases hw : isWs x = true
    · rw [if_pos hw]
      unfold wsEnd
      rw [wsDollarDrop_cons_ws x ts hw hx]
      exact ih (fun c hc => hnl c (by simp [hc]))
    · rw [if_neg hw]
      unfold wsEnd wsDollarDrop
      rw [if_neg hw]
      rfl

theorem wsEnd_ext (rest : List Char)
    (hr : rest = [] ∨ ∃ c t, rest = c :: t ∧ isWs c = false) :
    ∀ (trail : List Char), (∀ c ∈ trail, c ≠ '\n') →
      wsEnd (trail ++ '\n' :: rest) = (trail.dropWhile isWs).isEmpty := by
  intro trail hnl
  cases he : (trail.dropWhile isWs).isEmpty with
  | false =>
    unfold wsEnd
    rw [wsDollarDrop_ext_none trail ('\n' :: rest) hnl he]
    rfl
  | true =>
    rcases hr with rfl | hr2
    · unfold wsEnd
      have hall : ∀ c ∈ trail ++ ['\n'], isWs c = true := by
        intro c hc
        rcases List.mem_append.mp hc with hc | hc
        · exact dropWhile_nil_all trail (by simpa using he) c hc
        · rcases List.mem_singleton.mp hc with rfl
          decide
      have : wsDollarDrop (trail ++ ['\n']) = some [] := by
        clear he hnl
        induction trail with
        | nil => rfl
        | cons x t ih2 =>
          have hxw : isWs x = true := hall x (by simp)
          have hrec : wsDollarDrop (t ++ ['\n']) = some [] :=
            ih2 (fun c hc => hall c (by simp [hc]))
          show wsDollarDrop (x :: (t ++ ['\n'])) = some []
          unfold wsDollarDrop
          rw [if_pos hxw, hrec]
      rw [this]
      rfl
    · unfold wsEnd
      rw [wsDollarDrop_ext rest hr2 trail hnl, if_pos he]
      rfl

end BV

namespace BV

theorem append_nl_split : ∀ (p q x rest : List Char), p ++ q = x ++ '\n' :: rest →
    (∀ c ∈ p, c ≠ '\n') → (∀ c ∈ x, c ≠ '\n') →
    ∃ x2, x = p ++ x2 ∧ q = x2 ++ '\n' :: rest := by
  intro p
  induction p with
  | nil =>
    intro q x rest h _ _
    exact ⟨x, rfl, h⟩
  | cons c p2 ih =>
    intro q x rest h hp hx
    cases x with
    | nil =>
      rw [List.nil_append] at h
      rw [List.cons_append] at h
      injection h with h1 h2
      exact absurd h1 (hp c (by simp))
    | cons d x2 =>
      rw [List.cons_append, List.cons_append] at h
      injection h with h1 h2
      subst h1
      obtain ⟨x3, e1, e2⟩ := ih q x2 rest h2 (fun e he => hp e (by simp [he]))
        (fun e he => hx e (by simp [he]))
      exact ⟨x3, by rw [List.cons_append, e1], e2⟩

theorem tripleTake_groups {x d r : List Char} (h : tripleTake x = some (d, r)) :
    (matchTriple d).isSome = true := by
  simp only [tripleTake] at h
  split at h
  · rename_i hcond
    obtain ⟨ha, hd1, hb, hd2, hc, he⟩ := hcond
    injection h with h
    injection h with h1 h2
    rw [← h1, matchTriple_build _ _ _ ha hb hc
      (fun e he2 => mem_takeWhile _ e he2) (fun e he2 => mem_takeWhile _ e he2)
      (fun e he2 => mem_takeWhile _ e he2)]
    rfl
  · exact Option.noConfusion h

theorem matchTriple_no_nl {d : List Char} (h : (matchTriple d).isSome = true) :
    ∀ c ∈ d, c ≠ '\n' := by
  cases hm : matchTriple d with
  | none => rw [hm] at h; exact Bool.noConfusion h
  | some tr =>
    obtain ⟨a, b, c⟩ := tr
    obtain ⟨hs, -, -, -, hda, hdb, hdc⟩ := matchTriple_inv hm
    subst hs
    intro e he
    rcases List.mem_append.mp he with he | he
    · exact digit_not_nl e (hda e he)
    rcases List.mem_cons.mp he with rfl | he
    · decide
    rcases List.mem_append.mp he with he | he
    · exact digit_not_nl e (hdb e he)
    rcases List.mem_cons.mp he with rfl | he
    · decide
    · exact digit_not_nl e (hdc e he)

theorem tripleTake_ext_some {x d r : List Char} (h : tripleTake x = some (d, r))
    (rest : List Char) :
    tripleTake (x ++ '\n' :: rest) = some (d, r ++ '\n' :: rest) := by
  have hx : x = d ++ '"' :: r := tripleTake_inv h
  have hm : (matchTriple d).isSome = true := tripleTake_groups h
  subst hx
  have := tripleTake_build d hm (r ++ '\n' :: rest)
  rw [← this]
  simp [List.append_assoc]

theorem tripleTake_ext_none {x : List Char} (h : tripleTake x = none)
    (hx : ∀ c ∈ x, c ≠ '\n') (rest : List Char) :
    tripleTake (x ++ '\n' :: rest) = none := by
  cases hext : tripleTake (x ++ '\n' :: rest) with
  | none => rfl
  | some pr =>
    obtain ⟨d, r2⟩ := pr
    have he : x ++ '\n' :: rest = d ++ '"' :: r2 := tripleTake_inv hext
    have hm : (matchTriple d).isSome = true := tripleTake_groups hext
    have hdn : ∀ c ∈ d ++ ['"'], c ≠ '\n' := by
      intro c hc
      rcases List.mem_append.mp hc with hc | hc
      · exact matchTriple_no_nl hm c hc
      · rcases List.mem_singleton.mp hc with rfl
        decide
    obtain ⟨x2, e1, e2⟩ := append_nl_split (d ++ ['"']) r2 x rest
      (by rw [List.append_assoc, List.singleton_append]; exact he.symm) hdn hx
    rw [e1, List.append_assoc, List.singleton_append] at h
    rw [tripleTake_build d hm x2] at h
    exact Option.noConfusion h

end BV

namespace BV

theorem verCore_ext (l rest : List Char) (hl : ∀ c ∈ l, c ≠ '\n')
    (hr : rest = [] ∨ ∃ c t, rest = c :: t ∧ isLower c = true) :
    verCore (l ++ '\n' :: rest) =
      (match verCore l with
       | some (g1, d, trail) => some (g1, d, trail ++ '\n' :: rest)
       | none => none) := by
  have hlitX := lit_ext "version".data l rest (by decide)
  cases hlit : lit "version".data l with
  | none =>
    have hX : lit "version".data (l ++ '\n' :: rest) = none := by rw [hlitX, hlit]
    simp only [verCore, hX, hlit]
  | some l1 =>
    have hX : lit "version".data (l ++ '\n' :: rest) = some (l1 ++ '\n' :: rest) := by
      rw [hlitX, hlit]
    have hl1 : ∀ c ∈ l1, c ≠ '\n' := by
      have e := lit_inv _ _ _ hlit
      intro c hc
      exact hl c (by rw [e]; exact List.mem_append_right _ hc)
    simp only [verCore, hX, hlit]
    by_cases hE : (l1.dropWhile isWs).isEmpty = true
    · have hall : ∀ c ∈ l1, isWs c = true :=
        dropWhile_nil_all l1 (List.isEmpty_iff.mp hE)
      have hd0 : l1.dropWhile isWs = [] := List.isEmpty_iff.mp hE
      have hdX : (l1 ++ '\n' :: rest).dropWhile isWs = rest.dropWhile isWs := by
        rw [dropWhile_append_all _ _ hall, List.dropWhile_cons, if_pos (by decide)]
      rw [hd0, hdX]
      rcases hr with rfl | ⟨c, t, rfl, hcl⟩
      · rw [List.dropWhile_nil, if_neg (by simp), if_neg (by simp)]
      · have hx1 : ¬ (some c = some '=') := by
          intro hcc
          injection hcc with hcc
          exact lower_ne c hcl '=' (by decide) hcc
        rw [dropWhile_cons_ff (lower_not_ws c hcl), List.head?_cons,
          if_neg hx1, if_neg (by simp)]
    · have hne : l1.dropWhile isWs ≠ [] := by
        intro hc
        rw [hc] at hE
        simp at hE
      have hdX : (l1 ++ '\n' :: rest).dropWhile isWs = l1.dropWhile isWs ++ '\n' :: rest :=
        dropWhile_append_stop _ _ hne
      have htX : (l1 ++ '\n' :: rest).takeWhile isWs = l1.takeWhile isWs :=
        takeWhile_append_stop _ _ hne
      obtain ⟨c1, T1, hc1⟩ : ∃ c1 T1, l1.dropWhile isWs = c1 :: T1 := by
        cases hcc : l1.dropWhile isWs with
        | nil => exact absurd hcc hne
        | cons c1 T1 => exact ⟨c1, T1, rfl⟩
      rw [hdX, htX, hc1, List.cons_append, List.head?_cons, List.head?_cons]
      by_cases hceq : c1 = '='
      · subst hceq
        rw [if_pos rfl, if_pos rfl, List.tail_cons, List.tail_cons]
        have hT1 : ∀ c ∈ T1, c ≠ '\n' := fun c hc =>
          hl1 c ((List.dropWhile_sublist isWs).subset
            (hc1 ▸ List.mem_cons_of_mem '=' hc))
        by_cases hE2 : (T1.dropWhile isWs).isEmpty = true
        · have hall2 : ∀ c ∈ T1, isWs c = true :=
            dropWhile_nil_all T1 (List.isEmpty_iff.mp hE2)
          have hd20 : T1.dropWhile isWs = [] := List.isEmpty_iff.mp hE2
          have hdX2 : (T1 ++ '\n' :: rest).dropWhile isWs = rest.dropWhile isWs := by
            rw [dropWhile_append_all _ _ hall2, List.dropWhile_cons, if_pos (by decide)]
          rw [hd20, hdX2]
          rcases hr with rfl | ⟨c, t, rfl, hcl⟩
          · rw [List.dropWhile_nil, if_neg (by simp), if_neg (by simp)]
          · have hx2 : ¬ (some c = some '"') := by
              intro hcc
              injection hcc with hcc
              exact lower_ne c hcl '"' (by decide) hcc
            rw [dropWhile_cons_ff (lower_not_ws c hcl), List.head?_cons,
              if_neg hx2, if_neg (by simp)]
        · have hne2 : T1.dropWhile isWs ≠ [] := by
            intro hc
            rw [hc] at hE2
            simp at hE2
          have hdX2 : (T1 ++ '\n' :: rest).dropWhile isWs =
              T1.dropWhile isWs ++ '\n' :: rest :=
            dropWhile_append_stop _ _ hne2
          have htX2 : (T1 ++ '\n' :: rest).takeWhile isWs = T1.takeWhile isWs :=
            takeWhile_append_stop _ _ hne2
          obtain ⟨c2, T2, hc2⟩ : ∃ c2 T2, T1.dropWhile isWs = c2 :: T2 := by
            cases hcc : T1.dropWhile isWs with
            | nil => exact absurd hcc hne2
            | cons c2 T2 => exact ⟨c2, T2, rfl⟩
          rw [hdX2, htX2, hc2, List.cons_append, List.head?_cons, List.head?_cons]
          by_cases hceq2 : c2 = '"'
          · subst hceq2
            rw [if_pos rfl, if_pos rfl, List.tail_cons, List.tail_cons]
            have hT2 : ∀ c ∈ T2, c ≠ '\n' := fun c hc =>
              hT1 c ((List.dropWhile_sublist isWs).subset
                (hc2 ▸ List.mem_cons_of_mem '"' hc))
            cases htt : tripleTake T2 with
            | some pr =>
              obtain ⟨d, trail⟩ := pr
              rw [tripleTake_ext_some htt rest]
            | none =>
              rw [tripleTake_ext_none htt hT2 rest]
          · have hx3 : ¬ (some c2 = some '"') := by
              intro hcc
              injection hcc with hcc
              exact hceq2 hcc
            rw [if_neg hx3, if_neg hx3]
      · have hx4 : ¬ (some c1 = some '=') := by
          intro hcc
          injection hcc with hcc
          exact hceq hcc
        rw [if_neg hx4, if_neg hx4]

end BV

namespace BV

theorem nameAt_ext (crate l rest : List Char) (hl : ∀ c ∈ l, c ≠ '\n')
    (hcr : ∀ c ∈ crate, c ≠ '\n')
    (hr : rest = [] ∨ ∃ c t, rest = c :: t ∧ isLower c = true) :
    nameAt crate (l ++ '\n' :: rest) = nameAt crate l := by
  have hrw : rest = [] ∨ ∃ c t, rest = c :: t ∧ isWs c = false := by
    rcases hr with rfl | ⟨c, t, rfl, hcl⟩
    · exact Or.inl rfl
    · exact Or.inr ⟨c, t, rfl, lower_not_ws c hcl⟩
  have hlitX := lit_ext "name".data l rest (by decide)
  cases hlit : lit "name".data l with
  | none =>
    have hX : lit "name".data (l ++ '\n' :: rest) = none := by rw [hlitX, hlit]
    simp only [nameAt, hX, hlit]
  | some l1 =>
    have hX : lit "name".data (l ++ '\n' :: rest) = some (l1 ++ '\n' :: rest) := by
      rw [hlitX, hlit]
    have hl1 : ∀ c ∈ l1, c ≠ '\n' := by
      have e := lit_inv _ _ _ hlit
      intro c hc
      exact hl c (by rw [e]; exact List.mem_append_right _ hc)
    simp only [nameAt, hX, hlit]
    by_cases hE : (l1.dropWhile isWs).isEmpty = true
    · have hall : ∀ c ∈ l1, isWs c = true :=
        dropWhile_nil_all l1 (List.isEmpty_iff.mp hE)
      have hd0 : l1.dropWhile isWs = [] := List.isEmpty_iff.mp hE
      have hdX : (l1 ++ '\n' :: rest).dropWhile isWs = rest.dropWhile isWs := by
        rw [dropWhile_append_all _ _ hall, List.dropWhile_cons, if_pos (by decide)]
      rw [hd0, hdX]
      rcases hr with rfl | ⟨c, t, rfl, hcl⟩
      · simp
      · have hx1 : ¬ (some c = some '=') := by
          intro hcc
          injection hcc with hcc
          exact lower_ne c hcl '=' (by decide) hcc
        rw [dropWhile_cons_ff (lower_not_ws c hcl), List.head?_cons]
        simp [hx1]
    · have hne : l1.dropWhile isWs ≠ [] := by
        intro hc
        rw [hc] at hE
        simp at hE
      have hdX : (l1 ++ '\n' :: rest).dropWhile isWs = l1.dropWhile isWs ++ '\n' :: rest :=
        dropWhile_append_stop _ _ hne
      obtain ⟨c1, T1, hc1⟩ : ∃ c1 T1, l1.dropWhile isWs = c1 :: T1 := by
        cases hcc : l1.dropWhile isWs with
        | nil => exact absurd hcc hne
        | cons c1 T1 => exact ⟨c1, T1, rfl⟩
      rw [hdX, hc1, List.cons_append, List.head?_cons, List.head?_cons]
      by_cases hceq : c1 = '='
      · subst hceq
        rw [if_pos rfl, if_pos rfl, List.tail_cons, List.tail_cons]
        have hT1 : ∀ c ∈ T1, c ≠ '\n' := fun c hc =>
          hl1 c ((List.dropWhile_sublist isWs).subset
            (hc1 ▸ List.mem_cons_of_mem '=' hc))
        by_cases hE2 : (T1.dropWhile isWs).isEmpty = true
        · have hall2 : ∀ c ∈ T1, isWs c = true :=
            dropWhile_nil_all T1 (List.isEmpty_iff.mp hE2)
          have hd20 : T1.dropWhile isWs = [] := List.isEmpty_iff.mp hE2
          have hdX2 : (T1 ++ '\n' :: rest).dropWhile isWs = rest.dropWhile isWs := by
            rw [dropWhile_append_all _ _ hall2, List.dropWhile_cons, if_pos (by decide)]
          rw [hd20, hdX2]
          rcases hr with rfl | ⟨c, t, rfl, hcl⟩
          · simp
          · have hx2 : ¬ (some c = some '"') := by
              intro hcc
              injection hcc with hcc
              exact lower_ne c hcl '"' (by decide) hcc
            rw [dropWhile_cons_ff (lower_not_ws c hcl), List.head?_cons]
            simp [hx2]
        · have hne2 : T1.dropWhile isWs ≠ [] := by
            intro hc
            rw [hc] at hE2
            simp at hE2
          have hdX2 : (T1 ++ '\n' :: rest).dropWhile isWs =
              T1.dropWhile isWs ++ '\n' :: rest :=
            dropWhile_append_stop _ _ hne2
          obtain ⟨c2, T2, hc2⟩ : ∃ c2 T2, T1.dropWhile isWs = c2 :: T2 := by
            cases hcc : T1.dropWhile isWs with
            | nil => exact absurd hcc hne2
            | cons c2 T2 => exact ⟨c2, T2, rfl⟩
          rw [hdX2, hc2, List.cons_append, List.head?_cons, List.head?_cons]
          by_cases hceq2 : c2 = '"'
          · subst hceq2
            rw [if_pos rfl, if_pos rfl, List.tail_cons, List.tail_cons]
            have hT2 : ∀ c ∈ T2, c ≠ '\n' := fun c hc =>
              hT1 c ((List.dropWhile_sublist isWs).subset
                (hc2 ▸ List.mem_cons_of_mem '"' hc))
            have hlcX := lit_ext crate T2 rest hcr
            cases hlc : lit crate T2 with
            | none =>
              have hX2 : lit crate (T2 ++ '\n' :: rest) = none := by rw [hlcX, hlc]
              rw [hX2]
            | some t3 =>
              have hX2 : lit crate (T2 ++ '\n' :: rest) = some (t3 ++ '\n' :: rest) := by
                rw [hlcX, hlc]
              rw [hX2]
              have ht3 : ∀ c ∈ t3, c ≠ '\n' := by
                have e := lit_inv _ _ _ hlc
                intro c hc
                exact hT2 c (by rw [e]; exact List.mem_append_right _ hc)
              show (if (t3 ++ '\n' :: rest).head? = some '"'
                  then wsEnd (t3 ++ '\n' :: rest).tail else false) =
                (if t3.head? = some '"' then wsEnd t3.tail else false)
              cases t3 with
              | nil =>
                simp
              | cons c3 T4 =>
                rw [List.cons_append, List.head?_cons, List.head?_cons]
                by_cases hceq3 : c3 = '"'
                · subst hceq3
                  rw [if_pos rfl, if_pos rfl, List.tail_cons, List.tail_cons]
                  have hT4 : ∀ c ∈ T4, c ≠ '\n' := fun c hc => ht3 c (by simp [hc])
                  rw [wsEnd_ext rest hrw T4 hT4, wsEnd_no_nl T4 hT4]
                · have hx3 : ¬ (some c3 = some '"') := by
                    intro hcc
                    injection hcc with hcc
                    exact hceq3 hcc
                  rw [if_neg hx3, if_neg hx3]
          · have hx4 : ¬ (some c2 = some '"') := by
              intro hcc
              injection hcc with hcc
              exact hceq2 hcc
            rw [if_neg hx4, if_neg hx4]
      · have hx5 : ¬ (some c1 = some '=') := by
          intro hcc
          injection hcc with hcc
          exact hceq hcc
        rw [if_neg hx5, if_neg hx5]

theorem trail_no_nl {l g1 d trail : List Char} (hl : ∀ c ∈ l, c ≠ '\n')
    (h : verCore l = some (g1, d, trail)) : ∀ c ∈ trail, c ≠ '\n' := by
  obtain ⟨e0, -⟩ := verCore_inv h
  intro c hc
  refine hl c ?_
  rw [e0]
  exact List.mem_append_right _ (List.mem_cons_of_mem _
    (List.mem_append_right _ (List.mem_cons_of_mem _ hc)))

theorem verMatch_ext (l : List Char) (c0 : Char) (t0 : List Char)
    (hl : ∀ c ∈ l, c ≠ '\n') (hc0 : isLower c0 = true) :
    verMatchLock (l ++ '\n' :: c0 :: t0) =
      (match lineVer l with
       | some g1 => some (g1, '\n' :: c0 :: t0)
       | none => none) := by
  have hvc := verCore_ext l (c0 :: t0) hl (Or.inr ⟨c0, t0, rfl, hc0⟩)
  cases h : verCore l with
  | none =>
    rw [h] at hvc
    simp only [verMatchLock, lineVer, hvc, h]
  | some tr =>
    obtain ⟨g1, d, trail⟩ := tr
    rw [h] at hvc
    have htr : ∀ c ∈ trail, c ≠ '\n' := trail_no_nl hl h
    simp only [verMatchLock, lineVer, hvc, h]
    rw [wsDollarDrop_ext (c0 :: t0) ⟨c0, t0, rfl, lower_not_ws c0 hc0⟩ trail htr,
      ← all_eq_dropWhile_isEmpty]
    by_cases ha : trail.all isWs = true
    · rw [if_pos ha, if_pos ha]
    · rw [if_neg ha, if_neg ha]

theorem verMatch_last (l : List Char) (hl : ∀ c ∈ l, c ≠ '\n')
    (hnone : lineVer l = none) : verMatchLock (l ++ ['\n']) = none := by
  have hvc := verCore_ext l [] hl (Or.inl rfl)
  cases h : verCore l with
  | none =>
    rw [h] at hvc
    simp only [verMatchLock, hvc]
  | some tr =>
    obtain ⟨g1, d, trail⟩ := tr
    rw [h] at hvc
    simp only [lineVer, h] at hnone
    have hna : ¬ (trail.all isWs = true) := by
      intro ha
      rw [if_pos ha] at hnone
      exact Option.noConfusion hnone
    have htr : ∀ c ∈ trail, c ≠ '\n' := trail_no_nl hl h
    have hie : (trail.dropWhile isWs).isEmpty = false := by
      rw [← all_eq_dropWhile_isEmpty]
      cases hb : trail.all isWs
      · rfl
      · exact absurd hb hna
    simp only [verMatchLock, hvc]
    rw [wsDollarDrop_ext_none trail ('\n' :: []) htr hie]

end BV

namespace BV

/-! Structured lockfile lines and their rendering. -/

theorem goodLine_parts : ∀ {l : List Char}, goodLine l = true →
    ∃ c t, l = c :: t ∧ isLower c = true ∧ ∀ x ∈ l, x ≠ '\n' := by
  intro l h
  cases l with
  | nil => exact Bool.noConfusion h
  | cons c t =>
    simp only [goodLine, Bool.and_eq_true] at h
    refine ⟨c, t, rfl, h.1, ?_⟩
    intro x hx
    have h2 := h.2
    rw [List.all_eq_true] at h2
    have h3 := h2 x hx
    simpa using h3

theorem goodLine_build {c : Char} {t : List Char} (hc : isLower c = true)
    (hnl : ∀ x ∈ c :: t, x ≠ '\n') : goodLine (c :: t) = true := by
  simp only [goodLine, Bool.and_eq_true]
  refine ⟨hc, ?_⟩
  rw [List.all_eq_true]
  intro x hx
  exact decide_eq_true (hnl x hx)

theorem renderBody_cons (l : List Char) (ls : List (List Char)) :
    renderBody (l :: ls) = l ++ '\n' :: renderBody ls := by
  simp [renderBody]

theorem renderBody_head : ∀ (ls : List (List Char)), (∀ l ∈ ls, goodLine l = true) →
    renderBody ls = [] ∨ ∃ c t, renderBody ls = c :: t ∧ isLower c = true := by
  intro ls hg
  cases ls with
  | nil => exact Or.inl rfl
  | cons l ls =>
    obtain ⟨c, t, he, hc, -⟩ := goodLine_parts (hg l (by simp))
    right
    refine ⟨c, t ++ '\n' :: renderBody ls, ?_, hc⟩
    rw [renderBody_cons, he]
    rfl

theorem renderLock_cons (b : List (List Char)) (bs : List (List (List Char))) :
    renderLock (b :: bs) = pkgM ++ '\n' :: (renderBody b ++ renderLock bs) := by
  simp [renderLock, renderBlock]

theorem isPrefixOf_self_append2 : ∀ (p x : List Char), p.isPrefixOf (p ++ x) = true := by
  intro p x
  induction p with
  | nil => simp
  | cons c t ih =>
    show ((c == c) && t.isPrefixOf (t ++ x)) = true
    rw [ih, beq_self_eq_true]
    rfl

theorem bbLit_pkgM (x : List Char) : bbLit.isPrefixOf (pkgM ++ x) = true := rfl

/-! Scan lemmas: the line-start scanners cross a newline-free stretch
without acting, since the line-start flag is false throughout. -/

theorem findName_skip (crate : List Char) : ∀ (x y : List Char), (∀ c ∈ x, c ≠ '\n') →
    findNameLS crate (x ++ '\n' :: y) false = findNameLS crate y true := by
  intro x
  induction x with
  | nil => intro y _; rfl
  | cons c t ih =>
    intro y hnl
    have hc : c ≠ '\n' := hnl c (by simp)
    rw [List.cons_append]
    show ((false && nameAt crate (c :: (t ++ '\n' :: y))) ||
      findNameLS crate (t ++ '\n' :: y) (c = '\n')) = findNameLS crate y true
    rw [Bool.false_and, Bool.false_or, decide_eq_false hc]
    exact ih y (fun d hd => hnl d (List.mem_cons_of_mem c hd))

theorem subVer_skip (v : List Char) : ∀ (x y : List Char), (∀ c ∈ x, c ≠ '\n') →
    subVerLock v (x ++ '\n' :: y) false = x ++ '\n' :: subVerLock v y true := by
  intro x
  induction x with
  | nil => intro y _; rfl
  | cons c t ih =>
    intro y hnl
    have hc : c ≠ '\n' := hnl c (by simp)
    rw [List.cons_append]
    show c :: subVerLock v (t ++ '\n' :: y) (c = '\n') =
      (c :: t) ++ '\n' :: subVerLock v y true
    rw [decide_eq_false hc, ih y (fun d hd => hnl d (List.mem_cons_of_mem c hd))]
    rfl

theorem splitBlockEnd_skip : ∀ (x y : List Char), (∀ c ∈ x, c ≠ '\n') →
    splitBlockEnd (x ++ '\n' :: y) false =
      (x ++ '\n' :: (splitBlockEnd y true).1, (splitBlockEnd y true).2) := by
  intro x
  induction x with
  | nil => intro y _; rfl
  | cons c t ih =>
    intro y hnl
    have hc : c ≠ '\n' := hnl c (by simp)
    rw [List.cons_append]
    show (c :: (splitBlockEnd (t ++ '\n' :: y) (c = '\n')).1,
        (splitBlockEnd (t ++ '\n' :: y) (c = '\n')).2) =
      ((c :: t) ++ '\n' :: (splitBlockEnd y true).1, (splitBlockEnd y true).2)
    rw [decide_eq_false hc, ih y (fun d hd => hnl d (List.mem_cons_of_mem c hd))]
    rfl

end BV

namespace BV

theorem splitBlockEnd_line (l y : List Char) (hg : goodLine l = true) :
    splitBlockEnd (l ++ '\n' :: y) true =
      (l ++ '\n' :: (splitBlockEnd y true).1, (splitBlockEnd y true).2) := by
  obtain ⟨c, t, rfl, hc, hnl⟩ := goodLine_parts hg
  rw [List.cons_append]
  have hb : bbLit.isPrefixOf (c :: (t ++ '\n' :: y)) = false := by
    show (('[' == c) && (['['].isPrefixOf (t ++ '\n' :: y))) = false
    rw [beq_eq_false_iff_ne.mpr (Ne.symm (lower_ne c hc '[' (by decide)))]
    rfl
  show (if (true && bbLit.isPrefixOf (c :: (t ++ '\n' :: y))) = true
      then ([], c :: (t ++ '\n' :: y))
      else (c :: (splitBlockEnd (t ++ '\n' :: y) (c = '\n')).1,
        (splitBlockEnd (t ++ '\n' :: y) (c = '\n')).2)) = _
  rw [hb, Bool.and_false, if_neg (by decide), decide_eq_false (hnl c (by simp)),
    splitBlockEnd_skip t y (fun d hd => hnl d (List.mem_cons_of_mem c hd))]
  rfl

theorem splitBlockEnd_at_marker (x : List Char) (hp : bbLit.isPrefixOf x = true) :
    splitBlockEnd x true = ([], x) := by
  cases x with
  | nil => exact Bool.noConfusion hp
  | cons c t =>
    show (if (true && bbLit.isPrefixOf (c :: t)) = true then ([], c :: t)
      else (c :: (splitBlockEnd t (c = '\n')).1, (splitBlockEnd t (c = '\n')).2)) = _
    rw [hp, if_pos (show (true && true) = true from rfl)]

theorem splitBlockEnd_body : ∀ (ls : List (List Char)) (y : List Char),
    (∀ l ∈ ls, goodLine l = true) →
    splitBlockEnd (renderBody ls ++ y) true =
      (renderBody ls ++ (splitBlockEnd y true).1, (splitBlockEnd y true).2) := by
  intro ls
  induction ls with
  | nil => intro y _; simp [renderBody]
  | cons l ls ih =>
    intro y hg
    rw [renderBody_cons, List.append_assoc, List.cons_append,
      splitBlockEnd_line l (renderBody ls ++ y) (hg l (by simp)),
      ih y (fun l2 hl2 => hg l2 (List.mem_cons_of_mem l hl2))]
    simp [List.append_assoc]

theorem splitBlockEnd_lock : ∀ (bs : List (List (List Char))),
    splitBlockEnd (renderLock bs) true = ([], renderLock bs) := by
  intro bs
  cases bs with
  | nil => rfl
  | cons b bs =>
    apply splitBlockEnd_at_marker
    rw [renderLock_cons]
    exact bbLit_pkgM _

theorem splitAtMarker_pkg (x : List Char) (hp : pkgM.isPrefixOf x = true) :
    splitAtMarker x true = some ([], x) := by
  cases x with
  | nil => exact Bool.noConfusion hp
  | cons c t =>
    show (if (true && pkgM.isPrefixOf (c :: t)) = true then some ([], c :: t)
      else match splitAtMarker t (c = '\n') with
        | none => none
        | some (pre, rest) => some (c :: pre, rest)) = _
    rw [hp, if_pos (show (true && true) = true from rfl)]

theorem lockSegsAux_render : ∀ (bs : List (List (List Char))) (f : Nat),
    (renderLock bs).length < f →
    (∀ b ∈ bs, ∀ l ∈ b, goodLine l = true) →
    lockSegsAux f (renderLock bs) = ([], bs.map fun b => ('\n' :: renderBody b, [])) := by
  intro bs
  induction bs with
  | nil =>
    intro f _ _
    cases f with
    | zero => rfl
    | succ f => rfl
  | cons b bs ih =>
    intro f hf hg
    cases f with
    | zero =>
      exact absurd hf (by omega)
    | succ f =>
      have hsp : splitAtMarker (renderLock (b :: bs)) true =
          some ([], renderLock (b :: bs)) := by
        apply splitAtMarker_pkg
        rw [renderLock_cons]
        exact isPrefixOf_self_append2 pkgM _
      have hdrop : (renderLock (b :: bs)).drop 11 =
          '\n' :: (renderBody b ++ renderLock bs) := by
        rw [renderLock_cons, ← pkgM_length, List.drop_left]
      have hbe : splitBlockEnd ((renderLock (b :: bs)).drop 11) false =
          ('\n' :: renderBody b, renderLock bs) := by
        rw [hdrop]
        have h1 := splitBlockEnd_skip [] (renderBody b ++ renderLock bs) (by simp)
        rw [List.nil_append] at h1
        rw [h1, splitBlockEnd_body b (renderLock bs) (hg b (by simp)),
          splitBlockEnd_lock bs]
        simp
      have hlen : (renderLock bs).length < f := by
        rw [renderLock_cons] at hf
        simp only [List.length_append, List.length_cons, pkgM_length] at hf
        omega
      have hrec := ih f hlen (fun b2 hb2 => hg b2 (List.mem_cons_of_mem b hb2))
      simp only [lockSegsAux, hsp, hbe, hrec, List.map_cons]

theorem lockSegs_render (bs : List (List (List Char)))
    (hg : ∀ b ∈ bs, ∀ l ∈ b, goodLine l = true) :
    lockSegs (renderLock bs) = ([], bs.map fun b => ('\n' :: renderBody b, [])) :=
  lockSegsAux_render bs _ (Nat.lt_succ_self _) hg

end BV

namespace BV

theorem nameAt_nl (crate x : List Char) : nameAt crate ('\n' :: x) = false := rfl

theorem findName_body (crate : List Char) (hcr : ∀ c ∈ crate, c ≠ '\n') :
    ∀ (ls : List (List Char)), (∀ l ∈ ls, goodLine l = true) →
      findNameLS crate (renderBody ls) true = ls.any (lineName crate) := by
  intro ls
  induction ls with
  | nil => intro _; rfl
  | cons l ls ih =>
    intro hg
    obtain ⟨c, t, rfl, hc, hnl⟩ := goodLine_parts (hg l (by simp))
    rw [renderBody_cons, List.cons_append]
    show ((true && nameAt crate (c :: (t ++ '\n' :: renderBody ls))) ||
      findNameLS crate (t ++ '\n' :: renderBody ls) (c = '\n')) = _
    rw [Bool.true_and, decide_eq_false (hnl c (by simp)),
      findName_skip crate t (renderBody ls) (fun d hd => hnl d (List.mem_cons_of_mem c hd)),
      ih (fun l2 hl2 => hg l2 (List.mem_cons_of_mem _ hl2)),
      show c :: (t ++ '\n' :: renderBody ls) = (c :: t) ++ '\n' :: renderBody ls from rfl,
      nameAt_ext crate (c :: t) (renderBody ls) hnl hcr
        (renderBody_head ls (fun l2 hl2 => hg l2 (List.mem_cons_of_mem _ hl2))),
      List.any_cons]
    rfl

theorem findName_block (crate : List Char) (hcr : ∀ c ∈ crate, c ≠ '\n')
    (b : List (List Char)) (hg : ∀ l ∈ b, goodLine l = true) :
    findNameLS crate ('\n' :: renderBody b) true = b.any (lineName crate) := by
  show ((true && nameAt crate ('\n' :: renderBody b)) ||
    findNameLS crate (renderBody b) ('\n' = '\n')) = _
  rw [Bool.true_and, nameAt_nl, Bool.false_or, decide_eq_true rfl]
  exact findName_body crate hcr b hg

theorem subVer_body (v : List Char) :
    ∀ (ls : List (List Char)), (∀ l ∈ ls, goodLine l = true) →
      firstVerNotLast ls = true →
      subVerLock v (renderBody ls) true = renderBody (patchLines v ls) := by
  intro ls
  induction ls with
  | nil => intro _ _; rfl
  | cons l ls ih =>
    intro hg hf
    obtain ⟨c, t, rfl, hcl, hnl⟩ := goodLine_parts (hg l (by simp))
    rw [renderBody_cons]
    cases hlv : lineVer (c :: t) with
    | none =>
      have hp : patchLines v ((c :: t) :: ls) = (c :: t) :: patchLines v ls := by
        simp only [patchLines, hlv]
      have hfr : firstVerNotLast ls = true := by
        cases ls with
        | nil => rfl
        | cons l2 ls2 =>
          simp only [firstVerNotLast, hlv, Option.isSome_none, Bool.false_or] at hf
          exact hf
      have hvm : verMatchLock ((c :: t) ++ '\n' :: renderBody ls) = none := by
        rcases renderBody_head ls (fun l2 hl2 => hg l2 (List.mem_cons_of_mem _ hl2)) with
          hnil | ⟨c0, t0, heq, hc0⟩
        · rw [hnil]
          exact verMatch_last (c :: t) hnl hlv
        · rw [heq]
          have hx := verMatch_ext (c :: t) c0 t0 hnl hc0
          simp only [hlv] at hx
          exact hx
      rw [hp, renderBody_cons]
      rw [List.cons_append] at hvm ⊢
      simp only [subVerLock, hvm, if_pos]
      rw [decide_eq_false (hnl c (by simp)),
        subVer_skip v t _ (fun d hd => hnl d (List.mem_cons_of_mem c hd)),
        ih (fun l2 hl2 => hg l2 (List.mem_cons_of_mem _ hl2)) hfr]
      rfl
    | some g1 =>
      cases ls with
      | nil =>
        exfalso
        simp only [firstVerNotLast, hlv] at hf
        exact Bool.noConfusion hf
      | cons l2 ls2 =>
        obtain ⟨c2, t2, he2, hc2, -⟩ := goodLine_parts (hg l2 (by simp))
        have hvm : verMatchLock ((c :: t) ++ '\n' :: renderBody (l2 :: ls2)) =
            some (g1, '\n' :: renderBody (l2 :: ls2)) := by
          rw [renderBody_cons, he2, List.cons_append]
          have hx := verMatch_ext (c :: t) c2 (t2 ++ '\n' :: renderBody ls2) hnl hc2
          simp only [hlv] at hx
          exact hx
        have hp : patchLines v ((c :: t) :: l2 :: ls2) =
            (g1 ++ '"' :: (v ++ ['"'])) :: l2 :: ls2 := by
          simp only [patchLines, hlv]
        rw [hp, renderBody_cons]
        rw [List.cons_append] at hvm ⊢
        rw [renderBody_cons] at hvm
        simp only [subVerLock, hvm, if_pos]
        simp [renderBody_cons, List.append_assoc]

theorem patchBlockB_render (crate v : List Char) (hcr : ∀ c ∈ crate, c ≠ '\n')
    (b : List (List Char)) (hg : ∀ l ∈ b, goodLine l = true)
    (hf : firstVerNotLast b = true) :
    patchBlockB crate v ('\n' :: renderBody b) = '\n' :: renderBody (patchBlockL crate v b) := by
  unfold patchBlockB patchBlockL
  rw [findName_block crate hcr b hg]
  by_cases ha : b.any (lineName crate) = true
  · rw [if_pos ha, if_pos ha]
    show '\n' :: subVerLock v (renderBody b) true = _
    rw [subVer_body v b hg hf]
  · rw [if_neg ha, if_neg ha]

end BV

namespace BV

theorem patchText_render (crate v : List Char) (hcr : ∀ c ∈ crate, c ≠ '\n')
    (bs : List (List (List Char)))
    (hg : ∀ b ∈ bs, ∀ l ∈ b, goodLine l = true)
    (hf : ∀ b ∈ bs, firstVerNotLast b = true) :
    patchText crate v (renderLock bs) =
      (segsChanged crate v (bs.map fun b => ('\n' :: renderBody b, [])),
        renderLock (bs.map (patchBlockL crate v))) := by
  unfold patchText
  rw [patchLoopAux_segs crate v _ _ (Nat.lt_succ_self _),
    lockSegsAux_render bs _ (Nat.lt_succ_self _) hg]
  have htext : ((bs.map fun b => ('\n' :: renderBody b, ([] : List Char))).map fun p =>
      pkgM ++ patchBlockB crate v p.1 ++ p.2).flatten =
      renderLock (bs.map (patchBlockL crate v)) := by
    rw [List.map_map]
    unfold renderLock
    rw [List.map_map]
    congr 1
    apply List.map_congr_left
    intro b hb
    show pkgM ++ patchBlockB crate v ('\n' :: renderBody b) ++ [] =
      renderBlock (patchBlockL crate v b)
    rw [patchBlockB_render crate v hcr b (hg b hb) (hf b hb), List.append_nil]
    rfl
  rw [List.nil_append, htext]

theorem verCore_build (g1 w1 w2 v : List Char)
    (hga : g1 = "version".data ++ (w1 ++ '=' :: w2))
    (h1 : ∀ x ∈ w1, isWs x = true) (h2 : ∀ x ∈ w2, isWs x = true)
    (hv : (matchTriple v).isSome = true) :
    verCore (g1 ++ '"' :: (v ++ ['"'])) = some (g1, v, []) := by
  subst hga
  have hlit : lit "version".data
      (("version".data ++ (w1 ++ '=' :: w2)) ++ '"' :: (v ++ ['"'])) =
      some ((w1 ++ '=' :: w2) ++ '"' :: (v ++ ['"'])) := by
    rw [List.append_assoc]
    exact lit_self_append _ _
  have e1 : (w1 ++ '=' :: w2) ++ '"' :: (v ++ ['"']) =
      w1 ++ '=' :: (w2 ++ '"' :: (v ++ ['"'])) := by
    simp [List.append_assoc]
  rw [e1] at hlit
  have hw1t : (w1 ++ '=' :: (w2 ++ '"' :: (v ++ ['"']))).takeWhile isWs = w1 := by
    rw [takeWhile_append_all _ _ h1, takeWhile_cons_ff (by decide), List.append_nil]
  have hw1d : (w1 ++ '=' :: (w2 ++ '"' :: (v ++ ['"']))).dropWhile isWs =
      '=' :: (w2 ++ '"' :: (v ++ ['"'])) := by
    rw [dropWhile_append_all _ _ h1, dropWhile_cons_ff (by decide)]
  have hw2t : (w2 ++ '"' :: (v ++ ['"'])).takeWhile isWs = w2 := by
    rw [takeWhile_append_all _ _ h2, takeWhile_cons_ff (by decide), List.append_nil]
  have hw2d : (w2 ++ '"' :: (v ++ ['"'])).dropWhile isWs = '"' :: (v ++ ['"']) := by
    rw [dropWhile_append_all _ _ h2, dropWhile_cons_ff (by decide)]
  have htt : tripleTake (v ++ ['"']) = some (v, []) := tripleTake_build v hv []
  simp only [verCore, hlit, hw1t, hw1d, hw2t, hw2d, List.head?_cons, List.tail_cons,
    htt, if_pos]
  simp [List.append_assoc, e1]

theorem lineVer_some_core {l g1 : List Char} (h : lineVer l = some g1) :
    ∃ d trail, verCore l = some (g1, d, trail) ∧ trail.all isWs = true := by
  cases hvc : verCore l with
  | none =>
    simp only [lineVer, hvc] at h
    exact Option.noConfusion h
  | some tr =>
    obtain ⟨g2, d, trail⟩ := tr
    simp only [lineVer, hvc] at h
    by_cases ha : trail.all isWs = true
    · rw [if_pos ha] at h
      injection h with h
      subst h
      exact ⟨d, trail, rfl, ha⟩
    · rw [if_neg ha] at h
      exact Option.noConfusion h

theorem lineVer_build {v l g1 : List Char} (h : lineVer l = some g1)
    (hv : (matchTriple v).isSome = true) :
    lineVer (g1 ++ '"' :: (v ++ ['"'])) = some g1 := by
  obtain ⟨d, trail, hvc, -⟩ := lineVer_some_core h
  obtain ⟨-, w1, w2, hga, h1, h2⟩ := verCore_inv hvc
  have hb := verCore_build g1 w1 w2 v hga h1 h2 hv
  unfold lineVer
  rw [hb]
  rfl

theorem patchLines_idem (v : List Char) (hv : (matchTriple v).isSome = true) :
    ∀ ls : List (List Char), patchLines v (patchLines v ls) = patchLines v ls := by
  intro ls
  induction ls with
  | nil => rfl
  | cons l ls ih =>
    cases hlv : lineVer l with
    | some g1 =>
      have h1 : patchLines v (l :: ls) = (g1 ++ '"' :: (v ++ ['"'])) :: ls := by
        simp only [patchLines, hlv]
      rw [h1]
      simp only [patchLines, lineVer_build hlv hv]
    | none =>
      have h1 : patchLines v (l :: ls) = l :: patchLines v ls := by
        simp only [patchLines, hlv]
      rw [h1]
      simp only [patchLines, hlv]
      rw [ih]

end BV

namespace BV

theorem lineName_of_ver {l g1 : List Char} (crate : List Char)
    (h : lineVer l = some g1) : lineName crate l = false := by
  obtain ⟨d, trail, hvc, -⟩ := lineVer_some_core h
  obtain ⟨e0, w1, w2, hga, -, -⟩ := verCore_inv hvc
  rw [e0, hga]
  rfl

theorem lineName_patched (crate v : List Char) {l g1 : List Char}
    (h : lineVer l = some g1) :
    lineName crate (g1 ++ '"' :: (v ++ ['"'])) = false := by
  obtain ⟨d, trail, hvc, -⟩ := lineVer_some_core h
  obtain ⟨-, w1, w2, hga, -, -⟩ := verCore_inv hvc
  rw [hga]
  rfl

theorem any_lineName_patchLines (crate v : List Char) :
    ∀ ls : List (List Char),
      (patchLines v ls).any (lineName crate) = ls.any (lineName crate) := by
  intro ls
  induction ls with
  | nil => rfl
  | cons l ls ih =>
    cases hlv : lineVer l with
    | some g1 =>
      have h1 : patchLines v (l :: ls) = (g1 ++ '"' :: (v ++ ['"'])) :: ls := by
        simp only [patchLines, hlv]
      rw [h1, List.any_cons, List.any_cons, lineName_patched crate v hlv,
        lineName_of_ver crate hlv]
    | none =>
      have h1 : patchLines v (l :: ls) = l :: patchLines v ls := by
        simp only [patchLines, hlv]
      rw [h1, List.any_cons, List.any_cons, ih]

theorem goodLine_patched {l g1 : List Char} (v : List Char) (hgl : goodLine l = true)
    (h : lineVer l = some g1) (hv : (matchTriple v).isSome = true) :
    goodLine (g1 ++ '"' :: (v ++ ['"'])) = true := by
  obtain ⟨d, trail, hvc, -⟩ := lineVer_some_core h
  obtain ⟨e0, w1, w2, hga, -, -⟩ := verCore_inv hvc
  obtain ⟨c0, t0, -, -, hnl⟩ := goodLine_parts hgl
  have hmem : ∀ x ∈ g1 ++ '"' :: (v ++ ['"']), x ≠ '\n' := by
    intro x hx
    rcases List.mem_append.mp hx with hx | hx
    · exact hnl x (by rw [e0]; exact List.mem_append_left _ hx)
    · rcases List.mem_cons.mp hx with rfl | hx
      · decide
      · rcases List.mem_append.mp hx with hx | hx
        · exact matchTriple_no_nl hv x hx
        · rcases List.mem_singleton.mp hx with rfl
          decide
  rw [hga]
  rw [show ("version".data ++ (w1 ++ '=' :: w2)) ++ '"' :: (v ++ ['"']) =
    'v' :: (("ersion".data ++ (w1 ++ '=' :: w2)) ++ '"' :: (v ++ ['"'])) from rfl]
  apply goodLine_build (by decide)
  intro x hx
  apply hmem x
  rw [hga]
  exact hx

theorem goodLine_patchLines (v : List Char) (hv : (matchTriple v).isSome = true) :
    ∀ ls : List (List Char), (∀ l ∈ ls, goodLine l = true) →
      ∀ l ∈ patchLines v ls, goodLine l = true := by
  intro ls
  induction ls with
  | nil => intro _ l hl; exact absurd hl (by simp [patchLines])
  | cons l0 ls ih =>
    intro hg l hl
    cases hlv : lineVer l0 with
    | some g1 =>
      rw [show patchLines v (l0 :: ls) = (g1 ++ '"' :: (v ++ ['"'])) :: ls from by
        simp only [patchLines, hlv]] at hl
      rcases List.mem_cons.mp hl with rfl | hl
      · exact goodLine_patched v (hg l0 (by simp)) hlv hv
      · exact hg l (List.mem_cons_of_mem l0 hl)
    | none =>
      rw [show patchLines v (l0 :: ls) = l0 :: patchLines v ls from by
        simp only [patchLines, hlv]] at hl
      rcases List.mem_cons.mp hl with rfl | hl
      · exact hg l (by simp)
      · exact ih (fun x hx => hg x (List.mem_cons_of_mem l0 hx)) l hl

theorem firstVerNotLast_patch (v : List Char) (hv : (matchTriple v).isSome = true) :
    ∀ ls : List (List Char), firstVerNotLast ls = true →
      firstVerNotLast (patchLines v ls) = true := by
  intro ls
  induction ls with
  | nil => intro _; rfl
  | cons l ls ih =>
    intro hf
    cases ls with
    | nil =>
      have hlv : lineVer l = none := by
        simp only [firstVerNotLast] at hf
        exact Option.isNone_iff_eq_none.mp hf
      have h1 : patchLines v [l] = [l] := by simp only [patchLines, hlv]
      rw [h1]
      exact hf
    | cons l2 ls2 =>
      simp only [firstVerNotLast] at hf
      cases hlv : lineVer l with
      | some g1 =>
        have h1 : patchLines v (l :: l2 :: ls2) =
            (g1 ++ '"' :: (v ++ ['"'])) :: l2 :: ls2 := by
          simp only [patchLines, hlv]
        rw [h1]
        show ((lineVer (g1 ++ '"' :: (v ++ ['"']))).isSome ||
          firstVerNotLast (l2 :: ls2)) = true
        rw [lineVer_build hlv hv]
        rfl
      | none =>
        rw [hlv] at hf
        have hf2 : firstVerNotLast (l2 :: ls2) = true := by simpa using hf
        have h1 : patchLines v (l :: l2 :: ls2) = l :: patchLines v (l2 :: ls2) := by
          simp only [patchLines, hlv]
        rw [h1]
        obtain ⟨x, xs, hp⟩ : ∃ x xs, patchLines v (l2 :: ls2) = x :: xs := by
          cases hlv2 : lineVer l2 with
          | some g =>
            exact ⟨g ++ '"' :: (v ++ ['"']), ls2, by simp only [patchLines, hlv2]⟩
          | none =>
            exact ⟨l2, patchLines v ls2, by simp only [patchLines, hlv2]⟩
        rw [hp]
        show ((lineVer l).isSome || firstVerNotLast (x :: xs)) = true
        rw [← hp, ih hf2, Bool.or_true]

theorem patchBlockL_idem (crate v : List Char) (hv : (matchTriple v).isSome = true)
    (b : List (List Char)) :
    patchBlockL crate v (patchBlockL crate v b) = patchBlockL crate v b := by
  simp only [patchBlockL]
  by_cases ha : b.any (lineName crate) = true
  · rw [if_pos ha, any_lineName_patchLines crate v b, if_pos ha]
    exact patchLines_idem v hv b
  · rw [if_neg ha, if_neg ha]

theorem goodLine_patchBlockL (crate v : List Char) (hv : (matchTriple v).isSome = true)
    (b : List (List Char)) (hg : ∀ l ∈ b, goodLine l = true) :
    ∀ l ∈ patchBlockL crate v b, goodLine l = true := by
  simp only [patchBlockL]
  by_cases ha : b.any (lineName crate) = true
  · rw [if_pos ha]
    exact goodLine_patchLines v hv b hg
  · rw [if_neg ha]
    exact hg

theorem fvnl_patchBlockL (crate v : List Char) (hv : (matchTriple v).isSome = true)
    (b : List (List Char)) (hf : firstVerNotLast b = true) :
    firstVerNotLast (patchBlockL crate v b) = true := by
  simp only [patchBlockL]
  by_cases ha : b.any (lineName crate) = true
  · rw [if_pos ha]
    exact firstVerNotLast_patch v hv b hf
  · rw [if_neg ha]
    exact hf

end BV

namespace BV

/-- C5 (amended): over well-formed lockfiles — block-structured texts whose
lines are nonempty, newline-free and start with a lowercase letter, and whose
first version line in a block is never the final line of that block — and for
a well-formed new version, patch_lockfile is idempotent: a second application
to its own output changes nothing and reports changed = false; moreover for
every file the content is written back if and only if changed = true.  (On raw
texts outside this class the idempotence half is false, as the recorded
counterexample shows: the substitution can consume the newline before a
following block marker.) -/
theorem patch_lockfile_idempotent_amended
    (crate v : List Char) (bs : List (List (List Char)))
    (hcr : ∀ c ∈ crate, c ≠ '\n')
    (hg : ∀ b ∈ bs, ∀ l ∈ b, goodLine l = true)
    (hf : ∀ b ∈ bs, firstVerNotLast b = true)
    (hv : (matchTriple v).isSome = true) :
    patchText crate v (patchText crate v (renderLock bs)).2 =
      (false, (patchText crate v (renderLock bs)).2) ∧
    patch_lockfile (some ((patchText crate v (renderLock bs)).2)) crate v =
      (false, none) ∧
    ∀ file : Option (List Char),
      ((patch_lockfile file crate v).2).isSome = (patch_lockfile file crate v).1 := by
  have hS := patchText_render crate v hcr bs hg hf
  have hgs : ∀ b ∈ bs.map (patchBlockL crate v), ∀ l ∈ b, goodLine l = true := by
    intro b hb
    obtain ⟨b0, hb0, rfl⟩ := List.mem_map.mp hb
    exact goodLine_patchBlockL crate v hv b0 (hg b0 hb0)
  have hfs : ∀ b ∈ bs.map (patchBlockL crate v), firstVerNotLast b = true := by
    intro b hb
    obtain ⟨b0, hb0, rfl⟩ := List.mem_map.mp hb
    exact fvnl_patchBlockL crate v hv b0 (hf b0 hb0)
  have hS2 := patchText_render crate v hcr (bs.map (patchBlockL crate v)) hgs hfs
  have htext : (patchText crate v (renderLock bs)).2 =
      renderLock (bs.map (patchBlockL crate v)) := by
    rw [hS]
  have hMM : (bs.map (patchBlockL crate v)).map (patchBlockL crate v) =
      bs.map (patchBlockL crate v) := by
    rw [List.map_map]
    apply List.map_congr_left
    intro b hb
    exact patchBlockL_idem crate v hv b
  have hflag2 : segsChanged crate v
      ((bs.map (patchBlockL crate v)).map fun b => ('\n' :: renderBody b, [])) = false := by
    cases hany : ((bs.map (patchBlockL crate v)).map fun b =>
        ('\n' :: renderBody b, ([] : List Char))).any
        (fun p => if patchBlockB crate v p.1 = p.1 then false else true) with
    | false => exact hany
    | true =>
      exfalso
      obtain ⟨p, hp, hpt⟩ := List.any_eq_true.mp hany
      obtain ⟨b0, hb0, rfl⟩ := List.mem_map.mp hp
      have heq : patchBlockB crate v ('\n' :: renderBody b0) = '\n' :: renderBody b0 := by
        rw [patchBlockB_render crate v hcr b0 (hgs b0 hb0) (hfs b0 hb0)]
        obtain ⟨b1, hb1, rfl⟩ := List.mem_map.mp hb0
        rw [patchBlockL_idem crate v hv b1]
      rw [heq, if_pos rfl] at hpt
      exact Bool.noConfusion hpt
  have hrun2 : patchText crate v (patchText crate v (renderLock bs)).2 =
      (false, (patchText crate v (renderLock bs)).2) := by
    rw [htext, hS2, hflag2, hMM]
  refine ⟨hrun2, ?_, ?_⟩
  · show ((patchText crate v (patchText crate v (renderLock bs)).2).1,
      if (patchText crate v (patchText crate v (renderLock bs)).2).1 = true then
        some (patchText crate v (patchText crate v (renderLock bs)).2).2 else none) =
      (false, none)
    rw [hrun2]
    rfl
  · intro file
    cases file with
    | none => rfl
    | some s =>
      show (if (patchText crate v s).1 = true then
          some (patchText crate v s).2 else none).isSome = (patchText crate v s).1
      cases hc : (patchText crate v s).1 with
      | true => rw [if_pos rfl]; rfl
      | false => rw [if_neg (by simp)]; rfl

end BV

namespace BV

set_option maxRecDepth 100000 in
theorem patch_lockfile_idempotent_amended_witness :
    (∀ b ∈ [["name = \"foo\"".data, "version = \"1.2.3\"".data, "source = \"a\"".data],
        ["name = \"bar\"".data, "version = \"2.0.0\"".data, "source = \"b\"".data],
        ["name = \"foo\"".data, "version = \"1.2.3\"".data, "source = \"c\"".data]],
      firstVerNotLast b = true) ∧
    patchText "foo".data "1.3.0".data
        (patchText "foo".data "1.3.0".data (renderLock
          [["name = \"foo\"".data, "version = \"1.2.3\"".data, "source = \"a\"".data],
           ["name = \"bar\"".data, "version = \"2.0.0\"".data, "source = \"b\"".data],
           ["name = \"foo\"".data, "version = \"1.2.3\"".data, "source = \"c\"".data]])).2 =
      (false, (patchText "foo".data "1.3.0".data (renderLock
          [["name = \"foo\"".data, "version = \"1.2.3\"".data, "source = \"a\"".data],
           ["name = \"bar\"".data, "version = \"2.0.0\"".data, "source = \"b\"".data],
           ["name = \"foo\"".data, "version = \"1.2.3\"".data, "source = \"c\"".data]])).2) :=
  ⟨by decide,
    (patch_lockfile_idempotent_amended "foo".data "1.3.0".data
      [["name = \"foo\"".data, "version = \"1.2.3\"".data, "source = \"a\"".data],
       ["name = \"bar\"".data, "version = \"2.0.0\"".data, "source = \"b\"".data],
       ["name = \"foo\"".data, "version = \"1.2.3\"".data, "source = \"c\"".data]]
      (by decide) (by decide) (by decide) (by decide)).1⟩

end BV

namespace BV

theorem pkgLit_length : pkgLit.length = 9 := by decide

theorem splitAtPkg_inv : ∀ (s : List Char) (ls : Bool) (pre rest : List Char),
    splitAtPkg s ls = some (pre, rest) →
    s = pre ++ rest ∧ pkgLit.isPrefixOf rest = true := by
  intro s
  induction s with
  | nil => intro ls pre rest h; exact Option.noConfusion h
  | cons c t ih =>
    intro ls pre rest h
    unfold splitAtPkg at h
    split_ifs at h with hm
    · injection h with h
      injection h with h1 h2
      subst h1
      subst h2
      refine ⟨rfl, ?_⟩
      rw [Bool.and_eq_true] at hm
      exact hm.2
    · cases hrec : splitAtPkg t (c = '\n') with
      | none => rw [hrec] at h; exact Option.noConfusion h
      | some pr =>
        obtain ⟨pre2, rest2⟩ := pr
        rw [hrec] at h
        injection h with h
        injection h with h1 h2
        subst h1
        subst h2
        obtain ⟨e1, e2⟩ := ih (c = '\n') pre2 rest2 hrec
        exact ⟨by rw [List.cons_append, ← e1], e2⟩

theorem splitSectionEnd_recon : ∀ (s : List Char) (ls : Bool),
    (splitSectionEnd s ls).1 ++ (splitSectionEnd s ls).2 = s := by
  intro s
  induction s with
  | nil => intro ls; rfl
  | cons c t ih =>
    intro ls
    unfold splitSectionEnd
    split_ifs with hm
    · rfl
    · simp only [List.cons_append]
      rw [ih (c = '\n')]

theorem subVerMain_decomp : ∀ (s : List Char) (ls : Bool),
    (findVerMain s ls = none ∧ ∀ tmpl, subVerMain tmpl s ls = s) ∨
    ∃ pre g1 d r, s = pre ++ (g1 ++ '"' :: (d ++ '"' :: r)) ∧
      findVerMain s ls = some d ∧
      (∀ tmpl, subVerMain tmpl s ls = pre ++ (tmpl ++ r)) ∧
      ∃ w1 w2, g1 = "version".data ++ (w1 ++ '=' :: w2) ∧
        (∀ x ∈ w1, isWs x = true) ∧ (∀ x ∈ w2, isWs x = true) := by
  intro s
  induction s with
  | nil => intro ls; exact Or.inl ⟨rfl, fun _ => rfl⟩
  | cons c t ih =>
    intro ls
    cases ls with
    | true =>
      cases hvc : verCore (c :: t) with
      | some tr =>
        obtain ⟨g1, d, r⟩ := tr
        obtain ⟨e0, w1, w2, hga, h1, h2⟩ := verCore_inv hvc
        right
        refine ⟨[], g1, d, r, by simpa using e0, ?_, ?_, w1, w2, hga, h1, h2⟩
        · simp only [findVerMain, hvc, if_pos]
        · intro tmpl
          simp only [subVerMain, hvc, if_pos]
          simp
      | none =>
        rcases ih (c = '\n') with ⟨hfnd, hsb⟩ | ⟨pre, g1, d, r, he, hfind, hsub, hsh⟩
        · left
          constructor
          · simp only [findVerMain, hvc, if_pos]
            exact hfnd
          · intro tmpl
            simp only [subVerMain, hvc, if_pos]
            rw [hsb tmpl]
        · right
          refine ⟨c :: pre, g1, d, r, by rw [List.cons_append, ← he], ?_, ?_, hsh⟩
          · simp only [findVerMain, hvc, if_pos]
            exact hfind
          · intro tmpl
            simp only [subVerMain, hvc, if_pos]
            rw [hsub tmpl]
            rfl
    | false =>
      rcases ih (c = '\n') with ⟨hfnd, hsb⟩ | ⟨pre, g1, d, r, he, hfind, hsub, hsh⟩
      · left
        constructor
        · show findVerMain t (c = '\n') = none
          exact hfnd
        · intro tmpl
          show c :: subVerMain tmpl t (c = '\n') = c :: t
          rw [hsb tmpl]
      · right
        refine ⟨c :: pre, g1, d, r, by rw [List.cons_append, ← he], ?_, ?_, hsh⟩
        · show findVerMain t (c = '\n') = some d
          exact hfind
        · intro tmpl
          show c :: subVerMain tmpl t (c = '\n') = (c :: pre) ++ (tmpl ++ r)
          rw [hsub tmpl]
          rfl

end BV

namespace BV

/-- C7: frame property of the manifest rewrite of main: on success the input
manifest decomposes as A ++ matched ++ B, where matched is exactly the
replaced region — the first line-start version assignment of the first
package section, from the version keyword through the closing quote — and
the output is A ++ template ++ B for the expanded replacement template:
every byte of the document outside that single replaced region is preserved
byte-for-byte, in order, including all text before the section, the rest of
the section, any later sections, and everything after. -/
theorem manifest_rewrite_frame (text kind out newv : List Char)
    (h : mainRewrite text kind = Except.ok (out, newv)) :
    ∃ A g1 old B,
      text = A ++ (g1 ++ '"' :: (old ++ ['"'])) ++ B ∧
      out = A ++ buggyTemplate newv ++ B ∧
      bump old kind = Except.ok newv ∧
      ∃ w1 w2, g1 = "version".data ++ (w1 ++ '=' :: w2) ∧
        (∀ x ∈ w1, isWs x = true) ∧ (∀ x ∈ w2, isWs x = true) := by
  unfold mainRewrite at h
  cases hsp : splitAtPkg text true with
  | none =>
    rw [hsp] at h
    exact Except.noConfusion h
  | some pr =>
    obtain ⟨pre, rest⟩ := pr
    rw [hsp] at h
    have h2 : (match findVerMain (splitSectionEnd (rest.drop 9) false).1 true with
      | none => Except.error MainError.noVersionField
      | some cur =>
        match bump cur kind with
        | Except.error e => Except.error (MainError.bumpFailed e)
        | Except.ok newv2 =>
          Except.ok (pre ++ pkgLit ++
            subVerMain (buggyTemplate newv2)
              (splitSectionEnd (rest.drop 9) false).1 true ++
            (splitSectionEnd (rest.drop 9) false).2, newv2)) =
        Except.ok (out, newv) := h
    cases hfv : findVerMain (splitSectionEnd (rest.drop 9) false).1 true with
    | none =>
      rw [hfv] at h2
      exact Except.noConfusion h2
    | some cur =>
      rw [hfv] at h2
      have h3 : (match bump cur kind with
        | Except.error e => Except.error (MainError.bumpFailed e)
        | Except.ok newv2 =>
          Except.ok (pre ++ pkgLit ++
            subVerMain (buggyTemplate newv2)
              (splitSectionEnd (rest.drop 9) false).1 true ++
            (splitSectionEnd (rest.drop 9) false).2, newv2)) =
          Except.ok (out, newv) := h2
      cases hb : bump cur kind with
      | error e =>
        rw [hb] at h3
        exact Except.noConfusion h3
      | ok newv2 =>
        rw [hb] at h3
        injection h3 with h3
        injection h3 with hout hnv
        subst hnv
        rcases subVerMain_decomp (splitSectionEnd (rest.drop 9) false).1 true with
          ⟨hn, -⟩ | ⟨p, g1, d, r, he, hfind, hsub, w1, w2, hga, hw1, hw2⟩
        · rw [hn] at hfv
          exact Option.noConfusion hfv
        · rw [hfind] at hfv
          injection hfv with hfv
          subst hfv
          obtain ⟨e1, e2⟩ := splitAtPkg_inv text true pre rest hsp
          have e3 : rest = pkgLit ++ rest.drop 9 := by
            have hx := isPrefixOf_eq_append pkgLit rest e2
            rwa [pkgLit_length] at hx
          have e4 : (splitSectionEnd (rest.drop 9) false).1 ++
              (splitSectionEnd (rest.drop 9) false).2 = rest.drop 9 :=
            splitSectionEnd_recon _ _
          refine ⟨pre ++ pkgLit ++ p, g1, d,
            r ++ (splitSectionEnd (rest.drop 9) false).2, ?_, ?_, hb,
            w1, w2, hga, hw1, hw2⟩
          · have hstep : text = pre ++ (pkgLit ++
                ((p ++ (g1 ++ '"' :: (d ++ '"' :: r))) ++
                  (splitSectionEnd (rest.drop 9) false).2)) := by
              conv_lhs => rw [e1]
              congr 1
              conv_lhs => rw [e3]
              congr 1
              conv_lhs => rw [← e4]
              congr 1
            rw [hstep]
            simp [List.append_assoc]
          · rw [← hout, hsub (buggyTemplate newv2)]
            simp [List.append_assoc]

end BV

namespace BV

set_option maxRecDepth 100000 in
theorem manifest_rewrite_frame_witness :
    mainRewrite "[package]\nname = \"x\"\nversion = \"1.2.3\"\n".data "minor".data =
      Except.ok ("[package]\nname = \"x\"\n\\1\\\"1.3.0\\\"\n".data, "1.3.0".data) ∧
    ∃ A g1 old B,
      "[package]\nname = \"x\"\nversion = \"1.2.3\"\n".data =
        A ++ (g1 ++ '"' :: (old ++ ['"'])) ++ B ∧
      "[package]\nname = \"x\"\n\\1\\\"1.3.0\\\"\n".data =
        A ++ buggyTemplate "1.3.0".data ++ B ∧
      bump old "minor".data = Except.ok "1.3.0".data ∧
      ∃ w1 w2, g1 = "version".data ++ (w1 ++ '=' :: w2) ∧
        (∀ x ∈ w1, isWs x = true) ∧ (∀ x ∈ w2, isWs x = true) :=
  ⟨by decide,
    manifest_rewrite_frame "[package]\nname = \"x\"\nversion = \"1.2.3\"\n".data
      "minor".data "[package]\nname = \"x\"\n\\1\\\"1.3.0\\\"\n".data "1.3.0".data
      (by decide)⟩

set_option maxRecDepth 100000 in
/-- C1: REFUTED (code bug).  The replacement template of main is built with a
raw f-string, so the backreference to the first group and the escaped quotes
are taken literally: on the claim's own example — bumping the manifest
`[package]\nname = "x"\nversion = "1.2.3"\n` with kind minor — the version
line does not become `version = "1.3.0"`; the whole matched region is
replaced by the literal text `\1\"1.3.0\"`, so the output differs from the
document the claim promises. -/
theorem manifest_rewrite_mangles_version_line :
    mainRewrite "[package]\nname = \"x\"\nversion = \"1.2.3\"\n".data "minor".data =
      Except.ok ("[package]\nname = \"x\"\n\\1\\\"1.3.0\\\"\n".data, "1.3.0".data) ∧
    "[package]\nname = \"x\"\n\\1\\\"1.3.0\\\"\n".data ≠
      "[package]\nname = \"x\"\nversion = \"1.3.0\"\n".data :=
  ⟨by decide, by decide⟩

end BV
